import Mathlib

/-!
# Symbol maps of Chafa (chafa/chafa-symbol-map.c)

A shallow embedding of the symbol map: the set of wanted catalog indices
(a GLib hash table keyed by integers), the table that rebuild_symbols
derives from it (catalog records sorted by code point, followed by an
all-zero record), and the linear scan of chafa_symbol_map_has_symbol.

Conventions of the embedding.

* The global array chafa_symbols is a parameter of every function that
  reads it.  It is given as the list of its stored records; a read at a
  position past the list yields the all-zero record, so every list stands
  for a zero-terminated C array.  Records after the first one with c = 0
  are allowed and are never visited by the tag loops.
* Code points, tag masks, indices and counts are natural numbers and refs
  is an integer.  Indices and counts stay within gint as long as the
  catalog has fewer than 2^31 records.  The increment of refs is taken
  into the 32-bit range of gint by wrap_gint.
* A GLib call whose argument breaks the documented precondition (a NULL
  hash table), and a read through a NULL or too short symbols array, make
  the embedded function return none.
-/

namespace Chafa

/-! ## Records -/

/-- Modelled from the spec: the record type ChafaSymbol is declared in
chafa-private.h, which is not part of the sources at hand.  It carries the
tag bitmask sc, the code point c and a coverage value. -/
structure ChafaSymbol where
  sc : Nat
  c : Nat
  coverage : Nat
  deriving DecidableEq

/-- The record that memset (..., 0, sizeof (ChafaSymbol)) produces. -/
def ChafaSymbol.zero : ChafaSymbol := ⟨0, 0, 0⟩

/-- The read chafa_symbols [i]. -/
def symbolAt (chafa_symbols : List ChafaSymbol) (i : Nat) : ChafaSymbol :=
  chafa_symbols.getD i ChafaSymbol.zero

/-- Number of records before the terminator (the first record with c = 0). -/
def catalogLength : List ChafaSymbol → Nat
  | [] => 0
  | s :: rest => if s.c = 0 then 0 else catalogLength rest + 1

/-! ## GLib hash table used as a set of integers -/

/-- A GHashTable created with g_direct_hash / g_direct_equal and filled by
g_hash_table_add: a set of integer keys.  The list gives the order in
which an iterator hands the keys out; a key occurs once. -/
structure GHashTable where
  keys : List Nat
  nodup : keys.Nodup

/-- The call g_hash_table_new (g_direct_hash, g_direct_equal). -/
def g_hash_table_new : GHashTable := ⟨[], List.nodup_nil⟩

/-- The call g_hash_table_add (h, GINT_TO_POINTER (k)): nothing changes when
the key is present. -/
def g_hash_table_add (h : GHashTable) (k : Nat) : GHashTable :=
  if hk : k ∈ h.keys then h
  else ⟨h.keys ++ [k], List.Nodup.append h.nodup (List.nodup_singleton k)
          (by
            intro a ha hb
            have : a = k := by simpa using hb
            exact hk (this ▸ ha))⟩

/-- The call g_hash_table_remove (h, GINT_TO_POINTER (k)). -/
def g_hash_table_remove (h : GHashTable) (k : Nat) : GHashTable :=
  ⟨h.keys.erase k, h.nodup.erase k⟩

/-- The call g_hash_table_size (h). -/
def g_hash_table_size (h : GHashTable) : Nat := h.keys.length

/-- Insertion of the iterated keys into a table, the loop body of
copy_hash_table. -/
def copy_hash_table_loop : List Nat → GHashTable → GHashTable
  | [], dest => dest
  | key :: rest, dest => copy_hash_table_loop rest (g_hash_table_add dest key)

/-- copy_hash_table: a new table that receives every key of src. -/
def copy_hash_table (src : GHashTable) : GHashTable :=
  copy_hash_table_loop src.keys g_hash_table_new

/-! ## Sorting -/

/-- compare_symbols: the comparator handed to qsort. -/
def compare_symbols (a b : ChafaSymbol) : Int :=
  if a.c < b.c then -1
  else if a.c > b.c then 1
  else 0

/-- Insertion of one record into a list ordered by the comparator. -/
def qsort_insert (cmp : ChafaSymbol → ChafaSymbol → Int) (x : ChafaSymbol) :
    List ChafaSymbol → List ChafaSymbol
  | [] => [x]
  | y :: ys => if cmp x y ≤ 0 then x :: y :: ys else y :: qsort_insert cmp x ys

/-- The libc routine qsort, as an insertion sort driven by the comparator.
The theorems below use only that the result is a rearrangement of the input
that the comparator finds in order. -/
def qsort (cmp : ChafaSymbol → ChafaSymbol → Int) (base : List ChafaSymbol) :
    List ChafaSymbol :=
  base.foldr (qsort_insert cmp) []

/-! ## The symbol map -/

/-- The struct ChafaSymbolMap (its declaration sits in a header that is not
at hand), with the fields the source file reads and writes.  A NULL pointer
is none.  The array symbols, when present, lists all its
slots, the closing all-zero record included. -/
structure ChafaSymbolMap where
  refs : Int
  need_rebuild : Bool
  desired_symbols : Option GHashTable
  symbols : Option (List ChafaSymbol)
  n_symbols : Nat

/-- The keys of the wanted set, an unset table counting as empty. -/
def desired (symbol_map : ChafaSymbolMap) : List Nat :=
  match symbol_map.desired_symbols with
  | none => []
  | some h => h.keys

/-- The first n_symbols slots of the array, the table proper. -/
def table (symbol_map : ChafaSymbolMap) : List ChafaSymbol :=
  match symbol_map.symbols with
  | none => []
  | some a => a.take symbol_map.n_symbols

/-- rebuild_symbols.  The array gets one slot per key, in iteration order,
is sorted over its first n_symbols slots and closed by an all-zero record.
g_hash_table_size and g_hash_table_iter_init demand a table that is not
NULL; with a NULL table the iterator stays unset and the loop reads it, so
no result is given. -/
def rebuild_symbols (chafa_symbols : List ChafaSymbol) (symbol_map : ChafaSymbolMap) :
    Option ChafaSymbolMap :=
  match symbol_map.desired_symbols with
  | none => none
  | some h =>
    some { symbol_map with
      n_symbols := g_hash_table_size h
      symbols := some (qsort compare_symbols (h.keys.map (symbolAt chafa_symbols))
                        ++ [ChafaSymbol.zero])
      need_rebuild := false }

/-- chafa_symbol_map_init: the struct is zeroed and refs set to 1, whatever
it held. -/
def chafa_symbol_map_init (_symbol_map : ChafaSymbolMap) : ChafaSymbolMap :=
  { refs := 1, need_rebuild := false, desired_symbols := none, symbols := none,
    n_symbols := 0 }

/-- chafa_symbol_map_new: fresh storage handed to chafa_symbol_map_init. -/
def chafa_symbol_map_new : ChafaSymbolMap :=
  chafa_symbol_map_init ⟨0, false, none, none, 0⟩

/-- chafa_symbol_map_copy_contents, on the pair (dest, src) of distinct
structs; the result is the pair after the call.  The memcpy makes dest a
copy of src, then the table of keys is duplicated when there is one, the
array pointer cleared and the flag set. -/
def chafa_symbol_map_copy_contents (_dest src : ChafaSymbolMap) :
    ChafaSymbolMap × ChafaSymbolMap :=
  let dest := src
  let dest := { dest with desired_symbols :=
                  match dest.desired_symbols with
                  | none => none
                  | some h => some (copy_hash_table h) }
  let dest := { dest with symbols := none }
  let dest := { dest with need_rebuild := true }
  (dest, src)

/-- chafa_symbol_map_prepare. -/
def chafa_symbol_map_prepare (chafa_symbols : List ChafaSymbol)
    (symbol_map : ChafaSymbolMap) : Option ChafaSymbolMap :=
  if !symbol_map.need_rebuild then some symbol_map
  else rebuild_symbols chafa_symbols symbol_map

/-- The loop of chafa_symbol_map_has_symbol from position i, with rem
positions left below n_symbols. -/
def has_symbol_loop (symbols : Option (List ChafaSymbol)) (symbol : Nat) :
    Nat → Nat → Option Bool
  | _, 0 => some false
  | i, rem + 1 =>
    match symbols with
    | none => none
    | some a =>
      match a[i]? with
      | none => none
      | some sym =>
        if sym.c = symbol then some true
        else if sym.c > symbol then some false
        else has_symbol_loop symbols symbol (i + 1) rem

/-- chafa_symbol_map_has_symbol: the map is read, never changed. -/
def chafa_symbol_map_has_symbol (symbol_map : ChafaSymbolMap) (symbol : Nat) :
    Option Bool :=
  has_symbol_loop symbol_map.symbols symbol 0 symbol_map.n_symbols

/-- The value a 32-bit gint holds after an arithmetic step whose exact
result is x: x reduced modulo 2^32 into the range from -2^31 to 2^31 - 1. -/
def wrap_gint (x : Int) : Int := (x + 2147483648) % 4294967296 - 2147483648

/-- chafa_symbol_map_ref: refs++ on the gint field; a failed
g_return_if_fail leaves the map as it is. -/
def chafa_symbol_map_ref (symbol_map : ChafaSymbolMap) : ChafaSymbolMap :=
  if 0 < symbol_map.refs then
    { symbol_map with refs := wrap_gint (symbol_map.refs + 1) }
  else symbol_map

/-- chafa_symbol_map_unref: the count goes down by one; none stands for the
map destroyed by chafa_symbol_map_deinit and g_free when the count reaches
zero.  A failed g_return_if_fail leaves the map as it is. -/
def chafa_symbol_map_unref (symbol_map : ChafaSymbolMap) : Option ChafaSymbolMap :=
  if 0 < symbol_map.refs then
    if symbol_map.refs - 1 = 0 then none
    else some { symbol_map with refs := symbol_map.refs - 1 }
  else some symbol_map

/-- The loop of chafa_symbol_map_add_by_tags: the argument list is the
array from position i on. -/
def add_by_tags_loop (tags : Nat) : List ChafaSymbol → Nat → GHashTable → GHashTable
  | [], _, h => h
  | s :: rest, i, h =>
    if s.c ≠ 0 then
      add_by_tags_loop tags rest (i + 1)
        (if s.sc &&& tags ≠ 0 then g_hash_table_add h i else h)
    else h

/-- The loop of chafa_symbol_map_remove_by_tags. -/
def remove_by_tags_loop (tags : Nat) : List ChafaSymbol → Nat → GHashTable → GHashTable
  | [], _, h => h
  | s :: rest, i, h =>
    if s.c ≠ 0 then
      remove_by_tags_loop tags rest (i + 1)
        (if s.sc &&& tags ≠ 0 then g_hash_table_remove h i else h)
    else h

/-- The table of keys after the lazy creation in the two tag functions. -/
def desired_or_new (symbol_map : ChafaSymbolMap) : GHashTable :=
  match symbol_map.desired_symbols with
  | none => g_hash_table_new
  | some h => h

/-- chafa_symbol_map_add_by_tags; a failed g_return_if_fail leaves the map
as it is. -/
def chafa_symbol_map_add_by_tags (chafa_symbols : List ChafaSymbol)
    (symbol_map : ChafaSymbolMap) (tags : Nat) : ChafaSymbolMap :=
  if 0 < symbol_map.refs then
    { symbol_map with
      desired_symbols :=
        some (add_by_tags_loop tags chafa_symbols 0 (desired_or_new symbol_map))
      need_rebuild := true }
  else symbol_map

/-- chafa_symbol_map_remove_by_tags. -/
def chafa_symbol_map_remove_by_tags (chafa_symbols : List ChafaSymbol)
    (symbol_map : ChafaSymbolMap) (tags : Nat) : ChafaSymbolMap :=
  if 0 < symbol_map.refs then
    { symbol_map with
      desired_symbols :=
        some (remove_by_tags_loop tags chafa_symbols 0 (desired_or_new symbol_map))
      need_rebuild := true }
  else symbol_map

/-- The maps that creation followed by the tag functions, copying and
prepare can produce. -/
inductive Reachable (chafa_symbols : List ChafaSymbol) : ChafaSymbolMap → Prop
  | create : Reachable chafa_symbols chafa_symbol_map_new
  | add_by_tags (m : ChafaSymbolMap) (tags : Nat) :
      Reachable chafa_symbols m →
      Reachable chafa_symbols (chafa_symbol_map_add_by_tags chafa_symbols m tags)
  | remove_by_tags (m : ChafaSymbolMap) (tags : Nat) :
      Reachable chafa_symbols m →
      Reachable chafa_symbols (chafa_symbol_map_remove_by_tags chafa_symbols m tags)
  | copy_contents (dest src : ChafaSymbolMap) :
      Reachable chafa_symbols src →
      Reachable chafa_symbols (chafa_symbol_map_copy_contents dest src).1
  | prepare (m m' : ChafaSymbolMap) :
      Reachable chafa_symbols m →
      chafa_symbol_map_prepare chafa_symbols m = some m' →
      Reachable chafa_symbols m'

/-- An index whose catalog record lies before the terminator and shares a
tag with the mask. -/
def matchesTags (chafa_symbols : List ChafaSymbol) (tags : Nat) (i : Nat) : Prop :=
  i < catalogLength chafa_symbols ∧ (symbolAt chafa_symbols i).sc &&& tags ≠ 0

/-- Sample tag bits and a three-record catalog used for concrete checks. -/
def TAG_ASCII : Nat := 1

def TAG_BLOCK : Nat := 2

def sampleCatalog : List ChafaSymbol :=
  [⟨TAG_BLOCK, 35, 0⟩, ⟨TAG_ASCII, 46, 0⟩, ⟨TAG_ASCII, 64, 0⟩, ChafaSymbol.zero]

/-- The loop of chafa_symbol_map_has_symbol as a recursion over the records
it visits: found on equality, given up at the first larger code point. -/
def scan (symbol : Nat) : List ChafaSymbol → Bool
  | [] => false
  | sym :: rest =>
    if sym.c = symbol then true
    else if sym.c > symbol then false
    else scan symbol rest

/-- What creation and the four operations keep true of a map: the wanted
indices lie before the terminator, and a map that is not flagged for
rebuilding either has no table at all or carries the sorted records of its
wanted indices, closed by the all-zero record. -/
def Consistent (chafa_symbols : List ChafaSymbol) (m : ChafaSymbolMap) : Prop :=
  (∀ k ∈ desired m, k < catalogLength chafa_symbols) ∧
  (m.need_rebuild = false →
    m.n_symbols = (desired m).length ∧
    ((m.symbols = none ∧ m.desired_symbols = none) ∨
      m.symbols = some (qsort compare_symbols ((desired m).map (symbolAt chafa_symbols))
                        ++ [ChafaSymbol.zero])))

/-- The sample map after the ASCII records were added. -/
def sampleAdded : ChafaSymbolMap :=
  chafa_symbol_map_add_by_tags sampleCatalog chafa_symbol_map_new TAG_ASCII

/-- The sample map after the ASCII records were added and prepare has run. -/
def samplePrepared : ChafaSymbolMap :=
  { refs := 1, need_rebuild := false,
    desired_symbols := some ⟨[1, 2], by decide⟩,
    symbols := some [⟨TAG_ASCII, 46, 0⟩, ⟨TAG_ASCII, 64, 0⟩, ChafaSymbol.zero],
    n_symbols := 2 }

/-- A binary search for the code point x among the positions lo up to, not
including, hi of a table, written after the wording of the specification
(a binary search as the preferred form of the lookup); fuel bounds the
number of halvings. -/
def binary_search_loop (a : List ChafaSymbol) (x : Nat) : Nat → Nat → Nat → Bool
  | 0, _, _ => false
  | fuel + 1, lo, hi =>
    if lo < hi then
      match a[(lo + hi) / 2]? with
      | none => false
      | some s =>
        if s.c = x then true
        else if s.c < x then binary_search_loop a x fuel ((lo + hi) / 2 + 1) hi
        else binary_search_loop a x fuel lo ((lo + hi) / 2)
    else false

/-- Binary search over a whole table. -/
def binary_search (a : List ChafaSymbol) (x : Nat) : Bool :=
  binary_search_loop a x a.length 0 a.length

/-- A map whose table is not in order: the commercial at before the number
sign. -/
def unsortedMap : ChafaSymbolMap :=
  { refs := 1, need_rebuild := false,
    desired_symbols := some ⟨[0, 1], by decide⟩,
    symbols := some [⟨TAG_ASCII, 64, 0⟩, ⟨TAG_BLOCK, 35, 0⟩, ChafaSymbol.zero],
    n_symbols := 2 }

/-- A map whose count sits at the top of gint. -/
def maxRefsMap : ChafaSymbolMap :=
  { refs := 2147483647, need_rebuild := false, desired_symbols := none,
    symbols := none, n_symbols := 0 }

/-! ## The hash table and the tag loops -/

theorem GHashTable.ext_keys {h1 h2 : GHashTable} (e : h1.keys = h2.keys) : h1 = h2 := by
  cases h1; cases h2; cases e; rfl

theorem mem_g_hash_table_add (h : GHashTable) (k a : Nat) :
    a ∈ (g_hash_table_add h k).keys ↔ a ∈ h.keys ∨ a = k := by
  unfold g_hash_table_add
  by_cases hk : k ∈ h.keys
  · simp only [hk, dite_true]
    constructor
    · exact Or.inl
    · rintro (h1 | rfl)
      · exact h1
      · exact hk
  · simp [hk]

theorem mem_g_hash_table_remove (h : GHashTable) (k a : Nat) :
    a ∈ (g_hash_table_remove h k).keys ↔ a ∈ h.keys ∧ a ≠ k := by
  unfold g_hash_table_remove
  simp only
  rw [h.nodup.mem_erase_iff]
  exact and_comm

theorem g_hash_table_add_of_mem (h : GHashTable) (k : Nat) (hk : k ∈ h.keys) :
    g_hash_table_add h k = h := by
  unfold g_hash_table_add
  simp [hk]

theorem keys_g_hash_table_add_of_not_mem (h : GHashTable) (k : Nat) (hk : k ∉ h.keys) :
    (g_hash_table_add h k).keys = h.keys ++ [k] := by
  unfold g_hash_table_add
  simp [hk]

theorem keys_copy_hash_table_loop (l : List Nat) :
    ∀ dest : GHashTable, (dest.keys ++ l).Nodup →
      (copy_hash_table_loop l dest).keys = dest.keys ++ l := by
  induction l with
  | nil => intro dest _; simp [copy_hash_table_loop]
  | cons k rest ih =>
    intro dest hnd
    have hk : k ∉ dest.keys := by
      intro hk
      have := List.nodup_append.mp hnd
      exact this.2.2 hk (List.mem_cons_self k rest)
    simp only [copy_hash_table_loop]
    rw [ih]
    · rw [keys_g_hash_table_add_of_not_mem dest k hk]; simp
    · rw [keys_g_hash_table_add_of_not_mem dest k hk]; simpa using hnd

theorem copy_hash_table_eq (h : GHashTable) : copy_hash_table h = h := by
  apply GHashTable.ext_keys
  unfold copy_hash_table
  rw [keys_copy_hash_table_loop]
  · simp [g_hash_table_new]
  · simpa [g_hash_table_new] using h.nodup

theorem symbolAt_cons_succ (s : ChafaSymbol) (rest : List ChafaSymbol) (j : Nat) :
    symbolAt (s :: rest) (j + 1) = symbolAt rest j := by
  simp [symbolAt]

theorem symbolAt_cons_zero (s : ChafaSymbol) (rest : List ChafaSymbol) :
    symbolAt (s :: rest) 0 = s := by
  simp [symbolAt]

theorem mem_add_by_tags_loop (tags : Nat) (suf : List ChafaSymbol) :
    ∀ (i : Nat) (h : GHashTable) (a : Nat),
      a ∈ (add_by_tags_loop tags suf i h).keys ↔
        a ∈ h.keys ∨ (i ≤ a ∧ a - i < catalogLength suf ∧
          (symbolAt suf (a - i)).sc &&& tags ≠ 0) := by
  induction suf with
  | nil => intro i h a; simp [add_by_tags_loop, catalogLength]
  | cons s rest ih =>
    intro i h a
    by_cases hc : s.c = 0
    · simp [add_by_tags_loop, catalogLength, hc]
    · simp only [add_by_tags_loop, catalogLength, hc, ne_eq, not_false_eq_true, if_true,
        if_false]
      rw [ih]
      constructor
      · rintro (h1 | ⟨h1, h2, h3⟩)
        · by_cases hm : s.sc &&& tags = 0
          · simp only [hm, not_true_eq_false, if_false] at h1
            exact Or.inl h1
          · simp only [hm, not_false_eq_true, if_true] at h1
            rcases (mem_g_hash_table_add h i a).mp h1 with h1 | rfl
            · exact Or.inl h1
            · right
              refine ⟨le_refl _, by simp, ?_⟩
              simpa [symbolAt_cons_zero] using hm
        · right
          have e : a - i = (a - (i + 1)) + 1 := by omega
          refine ⟨by omega, by omega, ?_⟩
          rw [e, symbolAt_cons_succ]; exact h3
      · rintro (h1 | ⟨h1, h2, h3⟩)
        · left
          by_cases hm : s.sc &&& tags = 0
          · simpa [hm] using h1
          · simp only [hm, not_false_eq_true, if_true]
            exact (mem_g_hash_table_add h i a).mpr (Or.inl h1)
        · by_cases hai : a = i
          · subst hai
            left
            have hm : ¬ s.sc &&& tags = 0 := by simpa [symbolAt_cons_zero] using h3
            simp only [hm, not_false_eq_true, if_true]
            exact (mem_g_hash_table_add h a a).mpr (Or.inr rfl)
          · right
            have e : a - i = (a - (i + 1)) + 1 := by omega
            rw [e, symbolAt_cons_succ] at h3
            exact ⟨by omega, by omega, h3⟩

theorem mem_remove_by_tags_loop (tags : Nat) (suf : List ChafaSymbol) :
    ∀ (i : Nat) (h : GHashTable) (a : Nat),
      a ∈ (remove_by_tags_loop tags suf i h).keys ↔
        a ∈ h.keys ∧ ¬ (i ≤ a ∧ a - i < catalogLength suf ∧
          (symbolAt suf (a - i)).sc &&& tags ≠ 0) := by
  induction suf with
  | nil => intro i h a; simp [remove_by_tags_loop, catalogLength]
  | cons s rest ih =>
    intro i h a
    by_cases hc : s.c = 0
    · simp [remove_by_tags_loop, catalogLength, hc]
    · simp only [remove_by_tags_loop, catalogLength, hc, ne_eq, not_false_eq_true, if_true,
        if_false]
      rw [ih]
      by_cases hai : a = i
      · subst hai
        by_cases hm : s.sc &&& tags = 0
        · simp [hm, symbolAt_cons_zero]
        · simp [hm, symbolAt_cons_zero, mem_g_hash_table_remove]
      · have key : (i + 1 ≤ a ∧ a - (i + 1) < catalogLength rest ∧
            ¬ (symbolAt rest (a - (i + 1))).sc &&& tags = 0) ↔
            (i ≤ a ∧ a - i < catalogLength rest + 1 ∧
            ¬ (symbolAt (s :: rest) (a - i)).sc &&& tags = 0) := by
          constructor
          · rintro ⟨h1, h2, h3⟩
            have e : a - i = (a - (i + 1)) + 1 := by omega
            refine ⟨by omega, by omega, ?_⟩
            rw [e, symbolAt_cons_succ]; exact h3
          · rintro ⟨h1, h2, h3⟩
            have e : a - i = (a - (i + 1)) + 1 := by omega
            rw [e, symbolAt_cons_succ] at h3
            exact ⟨by omega, by omega, h3⟩
        rw [key]
        by_cases hm : s.sc &&& tags = 0
        · simp [hm]
        · simp only [hm, not_false_eq_true, if_true, mem_g_hash_table_remove]
          tauto

/-! ## Sorting and scanning -/

theorem compare_symbols_le_iff (a b : ChafaSymbol) : compare_symbols a b ≤ 0 ↔ a.c ≤ b.c := by
  unfold compare_symbols
  by_cases h1 : a.c < b.c
  · simp [h1]; omega
  · by_cases h2 : a.c > b.c
    · simp [h1, h2]
    · simp [h1, h2]; omega

theorem qsort_insert_perm (x : ChafaSymbol) (l : List ChafaSymbol) :
    (qsort_insert compare_symbols x l).Perm (x :: l) := by
  induction l with
  | nil => simp [qsort_insert]
  | cons y ys ih =>
    simp only [qsort_insert]
    split
    · exact List.Perm.refl _
    · exact (List.Perm.cons y ih).trans (List.Perm.swap x y ys)

theorem qsort_perm (l : List ChafaSymbol) : (qsort compare_symbols l).Perm l := by
  induction l with
  | nil => simp [qsort]
  | cons x xs ih =>
    have : qsort compare_symbols (x :: xs) =
        qsort_insert compare_symbols x (qsort compare_symbols xs) := rfl
    rw [this]
    exact (qsort_insert_perm x _).trans (List.Perm.cons x ih)

theorem qsort_insert_sorted (x : ChafaSymbol) (l : List ChafaSymbol)
    (hl : l.Pairwise (fun a b => a.c ≤ b.c)) :
    (qsort_insert compare_symbols x l).Pairwise (fun a b => a.c ≤ b.c) := by
  induction l with
  | nil => simp [qsort_insert]
  | cons y ys ih =>
    simp only [qsort_insert]
    rw [List.pairwise_cons] at hl
    split
    · rename_i hxy
      rw [compare_symbols_le_iff] at hxy
      rw [List.pairwise_cons]
      refine ⟨?_, List.pairwise_cons.mpr hl⟩
      intro b hb
      rcases List.mem_cons.mp hb with rfl | hb
      · exact hxy
      · exact le_trans hxy (hl.1 b hb)
    · rename_i hxy
      rw [compare_symbols_le_iff] at hxy
      rw [List.pairwise_cons]
      refine ⟨?_, ih hl.2⟩
      intro b hb
      rcases List.mem_cons.mp ((qsort_insert_perm x ys).subset hb) with rfl | hb
      · omega
      · exact hl.1 b hb

theorem qsort_sorted (l : List ChafaSymbol) :
    (qsort compare_symbols l).Pairwise (fun a b => a.c ≤ b.c) := by
  induction l with
  | nil => simp [qsort]
  | cons x xs ih =>
    have : qsort compare_symbols (x :: xs) =
        qsort_insert compare_symbols x (qsort compare_symbols xs) := rfl
    rw [this]
    exact qsort_insert_sorted x _ ih

theorem qsort_length (l : List ChafaSymbol) : (qsort compare_symbols l).length = l.length :=
  (qsort_perm l).length_eq

theorem has_symbol_loop_eq_scan (symbol : Nat) (rest : List ChafaSymbol) :
    ∀ (pre tail : List ChafaSymbol),
      has_symbol_loop (some (pre ++ rest ++ tail)) symbol pre.length rest.length
        = some (scan symbol rest) := by
  induction rest with
  | nil => intro pre tail; simp [has_symbol_loop, scan]
  | cons sym rest ih =>
    intro pre tail
    have hget : (pre ++ sym :: rest ++ tail)[pre.length]? = some sym := by
      rw [List.append_assoc, List.getElem?_append_right (le_refl _)]
      simp
    simp only [List.length_cons, has_symbol_loop, hget, scan]
    by_cases h1 : sym.c = symbol
    · simp [h1]
    · by_cases h2 : sym.c > symbol
      · simp [h1, h2]
      · simp only [h1, h2, if_false]
        have := ih (pre ++ [sym]) tail
        simpa using this

theorem scan_sorted (symbol : Nat) (l : List ChafaSymbol)
    (hl : l.Pairwise (fun a b => a.c ≤ b.c)) :
    scan symbol l = true ↔ ∃ s ∈ l, s.c = symbol := by
  induction l with
  | nil => simp [scan]
  | cons sym rest ih =>
    rw [List.pairwise_cons] at hl
    simp only [scan]
    by_cases h1 : sym.c = symbol
    · simp [h1]
    · by_cases h2 : sym.c > symbol
      · simp only [h1, h2, if_false, if_true]
        constructor
        · intro h; cases h
        · rintro ⟨s, hs, he⟩
          rcases List.mem_cons.mp hs with rfl | hs
          · exact absurd he h1
          · have := hl.1 s hs
            omega
      · simp only [h1, h2, if_false]
        rw [ih hl.2]
        constructor
        · rintro ⟨s, hs, he⟩
          exact ⟨s, List.mem_cons_of_mem _ hs, he⟩
        · rintro ⟨s, hs, he⟩
          rcases List.mem_cons.mp hs with rfl | hs
          · exact absurd he h1
          · exact ⟨s, hs, he⟩

/-! ## The operations on a map -/

theorem keys_desired_or_new (m : ChafaSymbolMap) : (desired_or_new m).keys = desired m := by
  unfold desired_or_new desired
  cases m.desired_symbols <;> rfl

theorem mem_desired_add_by_tags (chafa_symbols : List ChafaSymbol) (m : ChafaSymbolMap)
    (tags : Nat) (hrefs : 0 < m.refs) (i : Nat) :
    i ∈ desired (chafa_symbol_map_add_by_tags chafa_symbols m tags) ↔
      i ∈ desired m ∨ matchesTags chafa_symbols tags i := by
  unfold chafa_symbol_map_add_by_tags
  simp only [hrefs, if_true, desired]
  rw [mem_add_by_tags_loop, keys_desired_or_new]
  simp [matchesTags, desired]

theorem mem_desired_remove_by_tags (chafa_symbols : List ChafaSymbol) (m : ChafaSymbolMap)
    (tags : Nat) (hrefs : 0 < m.refs) (i : Nat) :
    i ∈ desired (chafa_symbol_map_remove_by_tags chafa_symbols m tags) ↔
      i ∈ desired m ∧ ¬ matchesTags chafa_symbols tags i := by
  unfold chafa_symbol_map_remove_by_tags
  simp only [hrefs, if_true, desired]
  rw [mem_remove_by_tags_loop, keys_desired_or_new]
  simp [matchesTags, desired]

theorem copy_contents_fst (dest src : ChafaSymbolMap) :
    (chafa_symbol_map_copy_contents dest src).1 =
      { src with symbols := none, need_rebuild := true } := by
  unfold chafa_symbol_map_copy_contents
  cases hsrc : src.desired_symbols with
  | none => simp [hsrc]
  | some h => simp [hsrc, copy_hash_table_eq]

theorem desired_copy_contents (dest src : ChafaSymbolMap) :
    desired (chafa_symbol_map_copy_contents dest src).1 = desired src := by
  rw [copy_contents_fst]; rfl

theorem prepare_of_not_need_rebuild (chafa_symbols : List ChafaSymbol) (m : ChafaSymbolMap)
    (h : m.need_rebuild = false) : chafa_symbol_map_prepare chafa_symbols m = some m := by
  simp [chafa_symbol_map_prepare, h]

theorem prepare_of_need_rebuild (chafa_symbols : List ChafaSymbol) (m : ChafaSymbolMap)
    (h : m.need_rebuild = true) :
    chafa_symbol_map_prepare chafa_symbols m = rebuild_symbols chafa_symbols m := by
  simp [chafa_symbol_map_prepare, h]

theorem rebuild_symbols_some (chafa_symbols : List ChafaSymbol) (m : ChafaSymbolMap)
    (h : GHashTable) (hd : m.desired_symbols = some h) :
    rebuild_symbols chafa_symbols m =
      some { m with
        n_symbols := (desired m).length
        symbols := some (qsort compare_symbols ((desired m).map (symbolAt chafa_symbols))
                          ++ [ChafaSymbol.zero])
        need_rebuild := false } := by
  simp [rebuild_symbols, hd, desired, g_hash_table_size]

theorem rebuild_symbols_none (chafa_symbols : List ChafaSymbol) (m : ChafaSymbolMap)
    (hd : m.desired_symbols = none) : rebuild_symbols chafa_symbols m = none := by
  simp [rebuild_symbols, hd]

theorem prepare_isSome (chafa_symbols : List ChafaSymbol) (m : ChafaSymbolMap)
    (h : m.desired_symbols ≠ none ∨ m.need_rebuild = false) :
    ∃ m', chafa_symbol_map_prepare chafa_symbols m = some m' := by
  cases hn : m.need_rebuild with
  | false => exact ⟨m, prepare_of_not_need_rebuild _ _ hn⟩
  | true =>
    rcases h with h | h
    · cases hd : m.desired_symbols with
      | none => exact absurd hd h
      | some t =>
        rw [prepare_of_need_rebuild _ _ hn, rebuild_symbols_some _ _ t hd]
        exact ⟨_, rfl⟩
    · rw [hn] at h; cases h

theorem prepare_desired (chafa_symbols : List ChafaSymbol) (m m' : ChafaSymbolMap)
    (h : chafa_symbol_map_prepare chafa_symbols m = some m') :
    m'.desired_symbols = m.desired_symbols ∧ m'.need_rebuild = false ∧ m'.refs = m.refs := by
  cases hn : m.need_rebuild with
  | false =>
    rw [prepare_of_not_need_rebuild _ _ hn] at h
    cases h
    exact ⟨rfl, hn, rfl⟩
  | true =>
    rw [prepare_of_need_rebuild _ _ hn] at h
    cases hd : m.desired_symbols with
    | none => rw [rebuild_symbols_none _ _ hd] at h; cases h
    | some t =>
      rw [rebuild_symbols_some _ _ t hd] at h
      cases h
      exact ⟨hd, rfl, rfl⟩

theorem consistent_of_reachable (chafa_symbols : List ChafaSymbol) (m : ChafaSymbolMap)
    (hm : Reachable chafa_symbols m) : Consistent chafa_symbols m := by
  induction hm with
  | create =>
    exact ⟨fun k hk => absurd hk (List.not_mem_nil k), fun _ => ⟨rfl, Or.inl ⟨rfl, rfl⟩⟩⟩
  | add_by_tags m tags _ ih =>
    by_cases hrefs : 0 < m.refs
    · refine ⟨?_, ?_⟩
      · intro k hk
        rcases (mem_desired_add_by_tags _ _ _ hrefs k).mp hk with h | h
        · exact ih.1 k h
        · exact h.1
      · intro h
        simp [chafa_symbol_map_add_by_tags, hrefs] at h
    · simpa [chafa_symbol_map_add_by_tags, hrefs] using ih
  | remove_by_tags m tags _ ih =>
    by_cases hrefs : 0 < m.refs
    · refine ⟨?_, ?_⟩
      · intro k hk
        exact ih.1 k ((mem_desired_remove_by_tags _ _ _ hrefs k).mp hk).1
      · intro h
        simp [chafa_symbol_map_remove_by_tags, hrefs] at h
    · simpa [chafa_symbol_map_remove_by_tags, hrefs] using ih
  | copy_contents dest src _ ih =>
    refine ⟨?_, ?_⟩
    · rw [desired_copy_contents]; exact ih.1
    · intro h
      rw [copy_contents_fst] at h
      cases h
  | prepare m m' _ hp ih =>
    cases hn : m.need_rebuild with
    | false =>
      rw [prepare_of_not_need_rebuild _ _ hn] at hp
      cases hp
      exact ih
    | true =>
      rw [prepare_of_need_rebuild _ _ hn] at hp
      cases hd : m.desired_symbols with
      | none => rw [rebuild_symbols_none _ _ hd] at hp; cases hp
      | some t =>
        rw [rebuild_symbols_some _ _ t hd] at hp
        cases hp
        refine ⟨ih.1, fun _ => ⟨rfl, Or.inr rfl⟩⟩

theorem table_of_consistent (chafa_symbols : List ChafaSymbol) (m : ChafaSymbolMap)
    (hc : Consistent chafa_symbols m) (hn : m.need_rebuild = false) :
    table m = qsort compare_symbols ((desired m).map (symbolAt chafa_symbols)) := by
  obtain ⟨hlen, hs⟩ := hc.2 hn
  rcases hs with ⟨hs, hd⟩ | hs
  · simp [table, hs, desired, hd, qsort]
  · unfold table
    rw [hs, hlen]
    simp only
    have : (desired m).length =
        (qsort compare_symbols ((desired m).map (symbolAt chafa_symbols))).length := by
      rw [qsort_length, List.length_map]
    rw [this, List.take_left]

theorem has_symbol_of_consistent (chafa_symbols : List ChafaSymbol) (m : ChafaSymbolMap)
    (hc : Consistent chafa_symbols m) (hn : m.need_rebuild = false) (x : Nat) :
    chafa_symbol_map_has_symbol m x = some (scan x (table m)) := by
  obtain ⟨hlen, hs⟩ := hc.2 hn
  rcases hs with ⟨hs, hd⟩ | hs
  · have h0 : m.n_symbols = 0 := by simpa [desired, hd] using hlen
    simp [chafa_symbol_map_has_symbol, h0, has_symbol_loop, table, hs, scan]
  · rw [table_of_consistent _ _ hc hn]
    unfold chafa_symbol_map_has_symbol
    rw [hs, hlen]
    have := has_symbol_loop_eq_scan x
      (qsort compare_symbols ((desired m).map (symbolAt chafa_symbols))) [] [ChafaSymbol.zero]
    simpa [qsort_length] using this

theorem mem_table_iff (chafa_symbols : List ChafaSymbol) (m : ChafaSymbolMap)
    (hc : Consistent chafa_symbols m) (hn : m.need_rebuild = false) (x : Nat) :
    (∃ s ∈ table m, s.c = x) ↔
      ∃ i, i < catalogLength chafa_symbols ∧ (symbolAt chafa_symbols i).c = x ∧
        i ∈ desired m := by
  rw [table_of_consistent _ _ hc hn]
  constructor
  · rintro ⟨s, hs, he⟩
    have hs' := (qsort_perm _).subset hs
    obtain ⟨i, hi, rfl⟩ := List.mem_map.mp hs'
    exact ⟨i, hc.1 i hi, he, hi⟩
  · rintro ⟨i, _, he, hi⟩
    exact ⟨symbolAt chafa_symbols i,
      (qsort_perm _).symm.subset (List.mem_map.mpr ⟨i, hi, rfl⟩), he⟩

theorem desired_nodup (m : ChafaSymbolMap) : (desired m).Nodup := by
  unfold desired
  cases m.desired_symbols with
  | none => exact List.nodup_nil
  | some h => exact h.nodup

theorem catalogLength_le (chafa_symbols : List ChafaSymbol) :
    catalogLength chafa_symbols ≤ chafa_symbols.length := by
  induction chafa_symbols with
  | nil => simp [catalogLength]
  | cons s rest ih =>
    simp only [catalogLength, List.length_cons]
    split <;> omega

theorem symbolAt_c_injOn (chafa_symbols : List ChafaSymbol)
    (hd : ((chafa_symbols.take (catalogLength chafa_symbols)).map ChafaSymbol.c).Nodup)
    (i j : Nat) (hi : i < catalogLength chafa_symbols) (hj : j < catalogLength chafa_symbols)
    (he : (symbolAt chafa_symbols i).c = (symbolAt chafa_symbols j).c) : i = j := by
  have hle := catalogLength_le chafa_symbols
  generalize hL : (chafa_symbols.take (catalogLength chafa_symbols)).map ChafaSymbol.c = L at hd
  have hlen : L.length = catalogLength chafa_symbols := by
    rw [← hL]; simp [hle]
  have key : ∀ k, k < catalogLength chafa_symbols →
      L[k]? = some (symbolAt chafa_symbols k).c := by
    intro k hk
    have hk2 : k < chafa_symbols.length := by omega
    rw [← hL]
    simp [symbolAt, List.getD_eq_getElem?_getD, List.getElem?_eq_getElem hk2,
      List.getElem?_take, hk]
  have hi2 : i < L.length := by omega
  have hj2 : j < L.length := by omega
  have e : L[i] = L[j] := by
    have h1 := key i hi
    have h2 := key j hj
    rw [List.getElem?_eq_getElem hi2] at h1
    rw [List.getElem?_eq_getElem hj2] at h2
    have h1 := Option.some.inj h1
    have h2 := Option.some.inj h2
    rw [h1, h2, he]
  exact hd.getElem_inj_iff.mp e

theorem pairwise_lt_of_le_of_nodup (l : List ChafaSymbol)
    (hs : l.Pairwise (fun a b => a.c ≤ b.c)) (hn : (l.map ChafaSymbol.c).Nodup) :
    l.Pairwise (fun a b => a.c < b.c) := by
  have hne : l.Pairwise (fun a b => a.c ≠ b.c) := by
    unfold List.Nodup at hn
    rw [List.pairwise_map] at hn
    exact hn
  exact (hs.and hne).imp (fun h => lt_of_le_of_ne h.1 h.2)

theorem prepare_sampleAdded :
    chafa_symbol_map_prepare sampleCatalog sampleAdded = some samplePrepared := by
  rfl

theorem reachable_sampleAdded : Reachable sampleCatalog sampleAdded :=
  Reachable.add_by_tags _ _ Reachable.create

theorem reachable_samplePrepared : Reachable sampleCatalog samplePrepared :=
  Reachable.prepare _ _ reachable_sampleAdded prepare_sampleAdded

theorem add_by_tags_loop_eq_self (tags : Nat) (suf : List ChafaSymbol) :
    ∀ (i : Nat) (h : GHashTable),
      (∀ a, i ≤ a → a - i < catalogLength suf →
        (symbolAt suf (a - i)).sc &&& tags ≠ 0 → a ∈ h.keys) →
      add_by_tags_loop tags suf i h = h := by
  induction suf with
  | nil => intro i h _; rfl
  | cons s rest ih =>
    intro i h hall
    by_cases hc : s.c = 0
    · simp [add_by_tags_loop, hc]
    · simp only [add_by_tags_loop, hc, ne_eq, not_false_eq_true, if_true]
      have hinner : (if ¬ s.sc &&& tags = 0 then g_hash_table_add h i else h) = h := by
        by_cases hm : s.sc &&& tags = 0
        · simp [hm]
        · simp only [hm, not_false_eq_true, if_true]
          apply g_hash_table_add_of_mem
          apply hall i (le_refl _)
          · simp [catalogLength, hc]
          · simpa [symbolAt_cons_zero] using hm
      rw [hinner]
      apply ih
      intro a h1 h2 h3
      have e : a - i = (a - (i + 1)) + 1 := by omega
      apply hall a (by omega)
      · simp only [catalogLength, hc, if_false]; omega
      · rw [e, symbolAt_cons_succ]; exact h3

theorem add_by_tags_twice (chafa_symbols : List ChafaSymbol) (m : ChafaSymbolMap)
    (tags : Nat) :
    chafa_symbol_map_add_by_tags chafa_symbols
        (chafa_symbol_map_add_by_tags chafa_symbols m tags) tags
      = chafa_symbol_map_add_by_tags chafa_symbols m tags := by
  by_cases hrefs : 0 < m.refs
  · have e : chafa_symbol_map_add_by_tags chafa_symbols m tags =
        { m with
          desired_symbols :=
            some (add_by_tags_loop tags chafa_symbols 0 (desired_or_new m))
          need_rebuild := true } := by
      simp [chafa_symbol_map_add_by_tags, hrefs]
    rw [e]
    simp only [chafa_symbol_map_add_by_tags, hrefs, if_true, desired_or_new]
    rw [add_by_tags_loop_eq_self]
    intro a h1 h2 h3
    exact (mem_add_by_tags_loop tags chafa_symbols 0 _ a).mpr (Or.inr ⟨h1, h2, h3⟩)
  · simp [chafa_symbol_map_add_by_tags, hrefs]

theorem has_symbol_add_by_tags (chafa_symbols : List ChafaSymbol) (m : ChafaSymbolMap)
    (tags x : Nat) :
    chafa_symbol_map_has_symbol (chafa_symbol_map_add_by_tags chafa_symbols m tags) x
      = chafa_symbol_map_has_symbol m x := by
  unfold chafa_symbol_map_add_by_tags chafa_symbol_map_has_symbol
  split <;> rfl

theorem has_symbol_remove_by_tags (chafa_symbols : List ChafaSymbol) (m : ChafaSymbolMap)
    (tags x : Nat) :
    chafa_symbol_map_has_symbol (chafa_symbol_map_remove_by_tags chafa_symbols m tags) x
      = chafa_symbol_map_has_symbol m x := by
  unfold chafa_symbol_map_remove_by_tags chafa_symbol_map_has_symbol
  split <;> rfl

theorem refs_add_by_tags (chafa_symbols : List ChafaSymbol) (m : ChafaSymbolMap)
    (tags : Nat) : (chafa_symbol_map_add_by_tags chafa_symbols m tags).refs = m.refs := by
  unfold chafa_symbol_map_add_by_tags
  split <;> rfl

/-! ## Membership, consistency and order of the table -/

/-- C1: for a map reached from creation by the tag functions, copying and
prepare, and any code point x, prepare followed by has_symbol returns true
exactly when a catalog record before the terminator has code point x and
its index is in the wanted set; and whenever prepare returns, has_symbol
returns a definite answer, true exactly in that case. -/
theorem has_symbol_after_prepare_iff (chafa_symbols : List ChafaSymbol)
    (m : ChafaSymbolMap) (x : Nat) (hm : Reachable chafa_symbols m) :
    ((∃ m', chafa_symbol_map_prepare chafa_symbols m = some m' ∧
        chafa_symbol_map_has_symbol m' x = some true) ↔
      ∃ i, i < catalogLength chafa_symbols ∧ (symbolAt chafa_symbols i).c = x ∧
        i ∈ desired m) ∧
    (∀ m', chafa_symbol_map_prepare chafa_symbols m = some m' →
      (chafa_symbol_map_has_symbol m' x = some true ∨
        chafa_symbol_map_has_symbol m' x = some false) ∧
      (chafa_symbol_map_has_symbol m' x = some true ↔
        ∃ i, i < catalogLength chafa_symbols ∧ (symbolAt chafa_symbols i).c = x ∧
          i ∈ desired m')) := by
  have main : ∀ m', chafa_symbol_map_prepare chafa_symbols m = some m' →
      (chafa_symbol_map_has_symbol m' x = some true ∨
        chafa_symbol_map_has_symbol m' x = some false) ∧
      (chafa_symbol_map_has_symbol m' x = some true ↔
        ∃ i, i < catalogLength chafa_symbols ∧ (symbolAt chafa_symbols i).c = x ∧
          i ∈ desired m') := by
    intro m' hp
    have hc := consistent_of_reachable _ _ (Reachable.prepare m m' hm hp)
    have hn := (prepare_desired _ _ _ hp).2.1
    rw [has_symbol_of_consistent _ _ hc hn x]
    refine ⟨?_, ?_⟩
    · cases scan x (table m') <;> simp
    · rw [← mem_table_iff _ _ hc hn x, ← scan_sorted x (table m')]
      · simp
      · rw [table_of_consistent _ _ hc hn]; exact qsort_sorted _
  refine ⟨⟨?_, ?_⟩, main⟩
  · rintro ⟨m', hp, ht⟩
    have := ((main m' hp).2).mp ht
    have hd : desired m' = desired m := by
      unfold desired; rw [(prepare_desired _ _ _ hp).1]
    rwa [hd] at this
  · rintro ⟨i, hi, hx, hmem⟩
    have hne : m.desired_symbols ≠ none := by
      intro h
      simp [desired, h] at hmem
    obtain ⟨m', hp⟩ := prepare_isSome chafa_symbols m (Or.inl hne)
    refine ⟨m', hp, ((main m' hp).2).mpr ⟨i, hi, hx, ?_⟩⟩
    have hd : desired m' = desired m := by
      unfold desired; rw [(prepare_desired _ _ _ hp).1]
    rwa [hd]

/-- Witness: the property of C1 at the sample catalog, the new map with the
ASCII records added, and the code point of the full stop. -/
theorem has_symbol_after_prepare_iff_witness :
    Reachable sampleCatalog sampleAdded ∧
    ((∃ m', chafa_symbol_map_prepare sampleCatalog sampleAdded = some m' ∧
        chafa_symbol_map_has_symbol m' 46 = some true) ↔
      ∃ i, i < catalogLength sampleCatalog ∧ (symbolAt sampleCatalog i).c = 46 ∧
        i ∈ desired sampleAdded) :=
  ⟨reachable_sampleAdded,
   (has_symbol_after_prepare_iff sampleCatalog sampleAdded 46 reachable_sampleAdded).1⟩

/-- C2: in every state reached from creation by the tag functions, copying
and prepare, a map whose need_rebuild flag is false has a table that is a
rearrangement of the catalog records of its wanted indices (none missing,
none extra), all of them before the terminator and none listed twice,
n_symbols is the number of wanted indices and the length of the table, and
the table is ascending by code point. -/
theorem table_consistent_when_fresh (chafa_symbols : List ChafaSymbol)
    (m : ChafaSymbolMap) (hm : Reachable chafa_symbols m)
    (hn : m.need_rebuild = false) :
    (table m).Perm ((desired m).map (symbolAt chafa_symbols)) ∧
    (∀ k ∈ desired m, k < catalogLength chafa_symbols) ∧
    (desired m).Nodup ∧
    m.n_symbols = (desired m).length ∧
    (table m).length = m.n_symbols ∧
    (table m).Pairwise (fun a b => a.c ≤ b.c) := by
  have hc := consistent_of_reachable _ _ hm
  have ht := table_of_consistent _ _ hc hn
  refine ⟨?_, hc.1, desired_nodup m, (hc.2 hn).1, ?_, ?_⟩
  · rw [ht]; exact qsort_perm _
  · rw [ht, qsort_length, List.length_map, (hc.2 hn).1]
  · rw [ht]; exact qsort_sorted _

/-- Witness: the property of C2 at the prepared sample map. -/
theorem table_consistent_when_fresh_witness :
    Reachable sampleCatalog samplePrepared ∧ samplePrepared.need_rebuild = false ∧
    (table samplePrepared).Perm ((desired samplePrepared).map (symbolAt sampleCatalog)) ∧
    (∀ k ∈ desired samplePrepared, k < catalogLength sampleCatalog) ∧
    (desired samplePrepared).Nodup ∧
    samplePrepared.n_symbols = (desired samplePrepared).length ∧
    (table samplePrepared).length = samplePrepared.n_symbols ∧
    (table samplePrepared).Pairwise (fun a b => a.c ≤ b.c) :=
  ⟨reachable_samplePrepared, rfl,
   table_consistent_when_fresh sampleCatalog samplePrepared reachable_samplePrepared rfl⟩

/-- C3: when the catalog records before the terminator have pairwise
distinct code points, prepare on a reached map leaves the first n_symbols
records of the table strictly ascending by code point, so no code point
occurs twice; and prepare does return a map whenever the set of wanted
indices has been created or the map is not flagged for rebuilding. -/
theorem table_strictly_ascending_after_prepare (chafa_symbols : List ChafaSymbol)
    (m : ChafaSymbolMap)
    (hd : ((chafa_symbols.take (catalogLength chafa_symbols)).map ChafaSymbol.c).Nodup)
    (hm : Reachable chafa_symbols m) :
    (∀ m', chafa_symbol_map_prepare chafa_symbols m = some m' →
      (table m').Pairwise (fun a b => a.c < b.c) ∧
      ((table m').map ChafaSymbol.c).Nodup) ∧
    (m.desired_symbols ≠ none ∨ m.need_rebuild = false →
      ∃ m', chafa_symbol_map_prepare chafa_symbols m = some m') := by
  refine ⟨?_, fun h => prepare_isSome chafa_symbols m h⟩
  intro m' hp
  have hc := consistent_of_reachable _ _ (Reachable.prepare m m' hm hp)
  have hn := (prepare_desired _ _ _ hp).2.1
  have ht := table_of_consistent _ _ hc hn
  have hnd : ((table m').map ChafaSymbol.c).Nodup := by
    rw [ht]
    have hp2 := (qsort_perm ((desired m').map (symbolAt chafa_symbols))).map ChafaSymbol.c
    refine hp2.nodup_iff.mpr ?_
    rw [List.map_map]
    refine List.Nodup.map_on ?_ (desired_nodup m')
    intro i hi j hj he
    exact symbolAt_c_injOn chafa_symbols hd i j (hc.1 i hi) (hc.1 j hj) he
  refine ⟨pairwise_lt_of_le_of_nodup _ ?_ hnd, hnd⟩
  rw [ht]; exact qsort_sorted _

/-- Witness: the property of C3 at the sample catalog and the sample map
with the ASCII records added. -/
theorem table_strictly_ascending_after_prepare_witness :
    ((sampleCatalog.take (catalogLength sampleCatalog)).map ChafaSymbol.c).Nodup ∧
    Reachable sampleCatalog sampleAdded ∧
    (∀ m', chafa_symbol_map_prepare sampleCatalog sampleAdded = some m' →
      (table m').Pairwise (fun a b => a.c < b.c) ∧
      ((table m').map ChafaSymbol.c).Nodup) ∧
    (sampleAdded.desired_symbols ≠ none ∨ sampleAdded.need_rebuild = false →
      ∃ m', chafa_symbol_map_prepare sampleCatalog sampleAdded = some m') :=
  ⟨by decide, reachable_sampleAdded,
   table_strictly_ascending_after_prepare sampleCatalog sampleAdded (by decide)
     reachable_sampleAdded⟩

/-- C4, as the code has it: has_symbol after add_by_tags on a new map, with
no prepare in between, does not find the full stop, while it does once
prepare has run. -/
theorem has_symbol_stale_counterexample :
    chafa_symbol_map_has_symbol
        (chafa_symbol_map_add_by_tags sampleCatalog chafa_symbol_map_new TAG_ASCII) 46
      = some false ∧
    chafa_symbol_map_prepare sampleCatalog
        (chafa_symbol_map_add_by_tags sampleCatalog chafa_symbol_map_new TAG_ASCII)
      = some samplePrepared ∧
    chafa_symbol_map_has_symbol samplePrepared 46 = some true :=
  ⟨by decide, rfl, by decide⟩

/-- C4, amended: has_symbol does not rebuild.  It reads the array and
n_symbols as they stand, so directly after add_by_tags or remove_by_tags it
returns what it returned before that call, and the table is the one left by
the last prepare. -/
theorem has_symbol_reads_last_table (chafa_symbols : List ChafaSymbol)
    (m : ChafaSymbolMap) (tags x : Nat) :
    chafa_symbol_map_has_symbol (chafa_symbol_map_add_by_tags chafa_symbols m tags) x
      = chafa_symbol_map_has_symbol m x ∧
    chafa_symbol_map_has_symbol (chafa_symbol_map_remove_by_tags chafa_symbols m tags) x
      = chafa_symbol_map_has_symbol m x ∧
    table (chafa_symbol_map_add_by_tags chafa_symbols m tags) = table m ∧
    table (chafa_symbol_map_remove_by_tags chafa_symbols m tags) = table m := by
  refine ⟨has_symbol_add_by_tags _ _ _ _, has_symbol_remove_by_tags _ _ _ _, ?_, ?_⟩
  · by_cases hrefs : 0 < m.refs <;> simp [chafa_symbol_map_add_by_tags, table, hrefs]
  · by_cases hrefs : 0 < m.refs <;> simp [chafa_symbol_map_remove_by_tags, table, hrefs]

/-- C5: on a map with refs > 0, add_by_tags makes the wanted set the old
one (empty when unset) united with the indices before the terminator whose
tags share a bit with the mask. -/
theorem desired_after_add_by_tags (chafa_symbols : List ChafaSymbol)
    (m : ChafaSymbolMap) (tags : Nat) (hrefs : 0 < m.refs) (i : Nat) :
    i ∈ desired (chafa_symbol_map_add_by_tags chafa_symbols m tags) ↔
      i ∈ desired m ∨
        (i < catalogLength chafa_symbols ∧ (symbolAt chafa_symbols i).sc &&& tags ≠ 0) :=
  mem_desired_add_by_tags chafa_symbols m tags hrefs i

/-- Witness: the property of C5 at the new map, the sample catalog, the
ASCII mask and index 1. -/
theorem desired_after_add_by_tags_witness :
    0 < chafa_symbol_map_new.refs ∧
    (1 ∈ desired (chafa_symbol_map_add_by_tags sampleCatalog chafa_symbol_map_new TAG_ASCII) ↔
      1 ∈ desired chafa_symbol_map_new ∨
        (1 < catalogLength sampleCatalog ∧ (symbolAt sampleCatalog 1).sc &&& TAG_ASCII ≠ 0)) :=
  ⟨by decide,
   desired_after_add_by_tags sampleCatalog chafa_symbol_map_new TAG_ASCII (by decide) 1⟩

/-- C6: on a map with refs > 0, remove_by_tags makes the wanted set the old
one minus the catalog indices (those before the terminator) whose tags
share a bit with the mask; on a reached map, whose wanted indices all lie
before the terminator, an index stays exactly when it was present and its
record shares no tag with the mask. -/
theorem desired_after_remove_by_tags (chafa_symbols : List ChafaSymbol)
    (m : ChafaSymbolMap) (tags : Nat) (hrefs : 0 < m.refs) :
    (∀ i, i ∈ desired (chafa_symbol_map_remove_by_tags chafa_symbols m tags) ↔
      i ∈ desired m ∧
        ¬ (i < catalogLength chafa_symbols ∧ (symbolAt chafa_symbols i).sc &&& tags ≠ 0)) ∧
    (Reachable chafa_symbols m →
      ∀ i, i ∈ desired (chafa_symbol_map_remove_by_tags chafa_symbols m tags) ↔
        i ∈ desired m ∧ ¬ ((symbolAt chafa_symbols i).sc &&& tags ≠ 0)) := by
  refine ⟨fun i => mem_desired_remove_by_tags chafa_symbols m tags hrefs i, ?_⟩
  intro hm i
  have hc := consistent_of_reachable _ _ hm
  rw [mem_desired_remove_by_tags chafa_symbols m tags hrefs i]
  unfold matchesTags
  constructor
  · rintro ⟨h1, h2⟩
    exact ⟨h1, fun h3 => h2 ⟨hc.1 i h1, h3⟩⟩
  · rintro ⟨h1, h2⟩
    exact ⟨h1, fun h3 => h2 h3.2⟩

/-- Witness: the property of C6 at the sample map with the ASCII records
added and the ASCII mask. -/
theorem desired_after_remove_by_tags_witness :
    0 < sampleAdded.refs ∧ Reachable sampleCatalog sampleAdded ∧
    (∀ i, i ∈ desired (chafa_symbol_map_remove_by_tags sampleCatalog sampleAdded TAG_ASCII) ↔
      i ∈ desired sampleAdded ∧
        ¬ (i < catalogLength sampleCatalog ∧
            (symbolAt sampleCatalog i).sc &&& TAG_ASCII ≠ 0)) ∧
    (∀ i, i ∈ desired (chafa_symbol_map_remove_by_tags sampleCatalog sampleAdded TAG_ASCII) ↔
      i ∈ desired sampleAdded ∧ ¬ ((symbolAt sampleCatalog i).sc &&& TAG_ASCII ≠ 0)) :=
  ⟨by decide, reachable_sampleAdded,
   (desired_after_remove_by_tags sampleCatalog sampleAdded TAG_ASCII (by decide)).1,
   (desired_after_remove_by_tags sampleCatalog sampleAdded TAG_ASCII (by decide)).2
     reachable_sampleAdded⟩

/-- C7, as the code has it: on the sample map that already wants the ASCII
records, add_by_tags then remove_by_tags with the ASCII mask does not give
back the earlier wanted set (index 1 is gone). -/
theorem add_then_remove_counterexample :
    ¬ (∀ i, i ∈ desired (chafa_symbol_map_remove_by_tags sampleCatalog
              (chafa_symbol_map_add_by_tags sampleCatalog sampleAdded TAG_ASCII) TAG_ASCII) ↔
            i ∈ desired sampleAdded) := by
  intro h
  exact absurd ((h 1).mpr (by decide)) (by decide)

/-- C7, amended: on a map with refs > 0, add_by_tags followed at once by
remove_by_tags with the same mask leaves the earlier wanted set minus the
catalog indices whose tags share a bit with the mask; the earlier set comes
back exactly when it held no such index. -/
theorem desired_after_add_then_remove (chafa_symbols : List ChafaSymbol)
    (m : ChafaSymbolMap) (tags : Nat) (hrefs : 0 < m.refs) :
    (∀ i, i ∈ desired (chafa_symbol_map_remove_by_tags chafa_symbols
              (chafa_symbol_map_add_by_tags chafa_symbols m tags) tags) ↔
        i ∈ desired m ∧
          ¬ (i < catalogLength chafa_symbols ∧
              (symbolAt chafa_symbols i).sc &&& tags ≠ 0)) ∧
    ((∀ i, i ∈ desired (chafa_symbol_map_remove_by_tags chafa_symbols
              (chafa_symbol_map_add_by_tags chafa_symbols m tags) tags) ↔
        i ∈ desired m) ↔
      ∀ i ∈ desired m,
        ¬ (i < catalogLength chafa_symbols ∧
            (symbolAt chafa_symbols i).sc &&& tags ≠ 0)) := by
  have hrefs2 : 0 < (chafa_symbol_map_add_by_tags chafa_symbols m tags).refs := by
    rw [refs_add_by_tags]; exact hrefs
  have main : ∀ i, i ∈ desired (chafa_symbol_map_remove_by_tags chafa_symbols
              (chafa_symbol_map_add_by_tags chafa_symbols m tags) tags) ↔
        i ∈ desired m ∧ ¬ matchesTags chafa_symbols tags i := by
    intro i
    rw [mem_desired_remove_by_tags _ _ _ hrefs2, mem_desired_add_by_tags _ _ _ hrefs]
    tauto
  refine ⟨main, ?_, ?_⟩
  · intro h i hi
    exact ((main i).mp ((h i).mpr hi)).2
  · intro h i
    rw [main i]
    exact ⟨fun h1 => h1.1, fun h1 => ⟨h1, h i h1⟩⟩

/-- Witness: the amended property of C7 at the new map, the sample catalog
and the ASCII mask. -/
theorem desired_after_add_then_remove_witness :
    0 < chafa_symbol_map_new.refs ∧
    (∀ i, i ∈ desired (chafa_symbol_map_remove_by_tags sampleCatalog
              (chafa_symbol_map_add_by_tags sampleCatalog chafa_symbol_map_new TAG_ASCII)
              TAG_ASCII) ↔
        i ∈ desired chafa_symbol_map_new ∧
          ¬ (i < catalogLength sampleCatalog ∧
              (symbolAt sampleCatalog i).sc &&& TAG_ASCII ≠ 0)) :=
  ⟨by decide,
   (desired_after_add_then_remove sampleCatalog chafa_symbol_map_new TAG_ASCII
      (by decide)).1⟩

/-- C8: add_by_tags twice in a row with one mask gives the very map that
one call gives, hence the same wanted set; prepare gives the same result on
both, and on a map with refs > 0 it does return, with the same array,
n_symbols and table. -/
theorem add_by_tags_idempotent (chafa_symbols : List ChafaSymbol)
    (m : ChafaSymbolMap) (tags : Nat) :
    desired (chafa_symbol_map_add_by_tags chafa_symbols
        (chafa_symbol_map_add_by_tags chafa_symbols m tags) tags)
      = desired (chafa_symbol_map_add_by_tags chafa_symbols m tags) ∧
    chafa_symbol_map_prepare chafa_symbols
        (chafa_symbol_map_add_by_tags chafa_symbols
          (chafa_symbol_map_add_by_tags chafa_symbols m tags) tags)
      = chafa_symbol_map_prepare chafa_symbols
          (chafa_symbol_map_add_by_tags chafa_symbols m tags) ∧
    (0 < m.refs →
      ∃ m1 m2,
        chafa_symbol_map_prepare chafa_symbols
          (chafa_symbol_map_add_by_tags chafa_symbols m tags) = some m1 ∧
        chafa_symbol_map_prepare chafa_symbols
          (chafa_symbol_map_add_by_tags chafa_symbols
            (chafa_symbol_map_add_by_tags chafa_symbols m tags) tags) = some m2 ∧
        m1.symbols = m2.symbols ∧ m1.n_symbols = m2.n_symbols ∧ table m1 = table m2) := by
  rw [add_by_tags_twice]
  refine ⟨rfl, rfl, ?_⟩
  intro hrefs
  have hne : (chafa_symbol_map_add_by_tags chafa_symbols m tags).desired_symbols ≠ none := by
    simp [chafa_symbol_map_add_by_tags, hrefs]
  obtain ⟨m1, h1⟩ := prepare_isSome chafa_symbols _ (Or.inl hne)
  exact ⟨m1, m1, h1, h1, rfl, rfl, rfl⟩

/-- Witness: the property of C8 at the new map, the sample catalog and the
ASCII mask. -/
theorem add_by_tags_idempotent_witness :
    0 < chafa_symbol_map_new.refs ∧
    desired (chafa_symbol_map_add_by_tags sampleCatalog
        (chafa_symbol_map_add_by_tags sampleCatalog chafa_symbol_map_new TAG_ASCII) TAG_ASCII)
      = desired (chafa_symbol_map_add_by_tags sampleCatalog chafa_symbol_map_new TAG_ASCII) ∧
    (∃ m1 m2,
        chafa_symbol_map_prepare sampleCatalog
          (chafa_symbol_map_add_by_tags sampleCatalog chafa_symbol_map_new TAG_ASCII)
            = some m1 ∧
        chafa_symbol_map_prepare sampleCatalog
          (chafa_symbol_map_add_by_tags sampleCatalog
            (chafa_symbol_map_add_by_tags sampleCatalog chafa_symbol_map_new TAG_ASCII)
            TAG_ASCII) = some m2 ∧
        m1.symbols = m2.symbols ∧ m1.n_symbols = m2.n_symbols ∧ table m1 = table m2) :=
  ⟨by decide,
   (add_by_tags_idempotent sampleCatalog chafa_symbol_map_new TAG_ASCII).1,
   (add_by_tags_idempotent sampleCatalog chafa_symbol_map_new TAG_ASCII).2.2 (by decide)⟩

/-- The part of C9 that the code keeps: after copy_contents the copy has
the wanted indices of src and the flag set, src is as it was, and when src
is a reached map whose set of wanted indices has been created, prepare
returns on both and the two maps answer has_symbol alike. -/
theorem copy_contents_agrees_when_created (chafa_symbols : List ChafaSymbol)
    (dest src : ChafaSymbolMap) :
    desired (chafa_symbol_map_copy_contents dest src).1 = desired src ∧
    (chafa_symbol_map_copy_contents dest src).1.need_rebuild = true ∧
    (chafa_symbol_map_copy_contents dest src).2 = src ∧
    (Reachable chafa_symbols src → src.desired_symbols ≠ none →
      ∃ d s,
        chafa_symbol_map_prepare chafa_symbols (chafa_symbol_map_copy_contents dest src).1
          = some d ∧
        chafa_symbol_map_prepare chafa_symbols (chafa_symbol_map_copy_contents dest src).2
          = some s ∧
        ∀ x, chafa_symbol_map_has_symbol d x = chafa_symbol_map_has_symbol s x) := by
  refine ⟨desired_copy_contents dest src, by rw [copy_contents_fst], rfl, ?_⟩
  intro hm hne
  have hc := consistent_of_reachable _ _ hm
  have h2 : (chafa_symbol_map_copy_contents dest src).2 = src := rfl
  rw [copy_contents_fst, h2]
  obtain ⟨t, hd⟩ : ∃ t, src.desired_symbols = some t := by
    cases hq : src.desired_symbols with
    | none => exact absurd hq hne
    | some t => exact ⟨t, rfl⟩
  have e1 : chafa_symbol_map_prepare chafa_symbols
      { src with symbols := none, need_rebuild := true } = _ :=
    (prepare_of_need_rebuild chafa_symbols _ rfl).trans
      (rebuild_symbols_some chafa_symbols _ t hd)
  cases hn : src.need_rebuild with
  | false =>
    refine ⟨_, src, e1, prepare_of_not_need_rebuild _ _ hn, ?_⟩
    intro x
    obtain ⟨hlen, hs⟩ := hc.2 hn
    rcases hs with ⟨_, hs⟩ | hs
    · rw [hd] at hs; cases hs
    · unfold chafa_symbol_map_has_symbol
      rw [hs, hlen]
      rfl
  | true =>
    refine ⟨_, _, e1, (prepare_of_need_rebuild chafa_symbols _ hn).trans
      (rebuild_symbols_some chafa_symbols _ t hd), ?_⟩
    intro x
    rfl

/-- C9 at the failing input: copy_contents from a newly created map gives a
copy flagged for rebuilding whose set of wanted indices is NULL; prepare on
the copy has no result, while prepare on the source returns and has_symbol
answers false there. -/
theorem copy_of_new_map_prepare_fails (chafa_symbols : List ChafaSymbol)
    (dest : ChafaSymbolMap) (x : Nat) :
    (chafa_symbol_map_copy_contents dest chafa_symbol_map_new).1.need_rebuild = true ∧
    (chafa_symbol_map_copy_contents dest chafa_symbol_map_new).1.desired_symbols = none ∧
    chafa_symbol_map_prepare chafa_symbols
        (chafa_symbol_map_copy_contents dest chafa_symbol_map_new).1 = none ∧
    chafa_symbol_map_prepare chafa_symbols
        (chafa_symbol_map_copy_contents dest chafa_symbol_map_new).2
      = some chafa_symbol_map_new ∧
    chafa_symbol_map_has_symbol chafa_symbol_map_new x = some false :=
  ⟨rfl, rfl, rfl, rfl, rfl⟩

/-- C10: a newly created map has refs 1, is not flagged for rebuilding, has
n_symbols 0 and an empty table, and has_symbol returns false on it for
every code point. -/
theorem new_map_is_empty (x : Nat) :
    chafa_symbol_map_new.refs = 1 ∧
    chafa_symbol_map_new.need_rebuild = false ∧
    chafa_symbol_map_new.n_symbols = 0 ∧
    table chafa_symbol_map_new = [] ∧
    desired chafa_symbol_map_new = [] ∧
    chafa_symbol_map_has_symbol chafa_symbol_map_new x = some false :=
  ⟨rfl, rfl, rfl, rfl, rfl, rfl⟩

/-! ## Catalog bounds, the flag and the count -/

theorem symbolAt_c_ne_zero (chafa_symbols : List ChafaSymbol) :
    ∀ i, i < catalogLength chafa_symbols → (symbolAt chafa_symbols i).c ≠ 0 := by
  induction chafa_symbols with
  | nil => intro i hi; simp [catalogLength] at hi
  | cons s rest ih =>
    intro i hi
    by_cases hc : s.c = 0
    · simp [catalogLength, hc] at hi
    · cases i with
      | zero => simpa [symbolAt_cons_zero] using hc
      | succ j =>
        rw [symbolAt_cons_succ]
        apply ih
        simp only [catalogLength, hc, if_false] at hi
        omega

/-- C11: with the catalog number sign (BLOCK), full stop (ASCII),
commercial at (ASCII) and the terminator, and a new map: after
add_by_tags (ASCII) and prepare the table reads full stop, commercial at,
has_symbol is false for the number sign and true for the full stop; after a
further add_by_tags (BLOCK) and prepare the table reads number sign, full
stop, commercial at; after a further remove_by_tags (ASCII) and prepare it
reads the number sign alone. -/
theorem sample_scenario :
    sampleCatalog.map (fun s => (s.c, s.sc))
      = [(35, TAG_BLOCK), (46, TAG_ASCII), (64, TAG_ASCII), (0, 0)] ∧
    ∃ s1 s2 s3,
      chafa_symbol_map_prepare sampleCatalog
        (chafa_symbol_map_add_by_tags sampleCatalog chafa_symbol_map_new TAG_ASCII) = some s1 ∧
      (table s1).map ChafaSymbol.c = [46, 64] ∧
      chafa_symbol_map_has_symbol s1 35 = some false ∧
      chafa_symbol_map_has_symbol s1 46 = some true ∧
      chafa_symbol_map_prepare sampleCatalog
        (chafa_symbol_map_add_by_tags sampleCatalog s1 TAG_BLOCK) = some s2 ∧
      (table s2).map ChafaSymbol.c = [35, 46, 64] ∧
      chafa_symbol_map_prepare sampleCatalog
        (chafa_symbol_map_remove_by_tags sampleCatalog s2 TAG_ASCII) = some s3 ∧
      (table s3).map ChafaSymbol.c = [35] := by
  refine ⟨by decide, _, _, _, rfl, ?_, ?_, ?_, rfl, ?_, rfl, ?_⟩ <;> decide

/-- C12: in every state reached from creation by the tag functions, copying
and prepare, each wanted index is below the catalog length (the position of
the first record with c = 0), so the read chafa_symbols [src_index] of the
rebuild stays inside the stored array and never meets the terminator. -/
theorem desired_indices_in_catalog (chafa_symbols : List ChafaSymbol)
    (m : ChafaSymbolMap) (hm : Reachable chafa_symbols m) (k : Nat)
    (hk : k ∈ desired m) :
    0 ≤ k ∧ k < catalogLength chafa_symbols ∧ k < chafa_symbols.length ∧
    (symbolAt chafa_symbols k).c ≠ 0 := by
  have hlt := (consistent_of_reachable _ _ hm).1 k hk
  exact ⟨Nat.zero_le k, hlt, lt_of_lt_of_le hlt (catalogLength_le _),
    symbolAt_c_ne_zero _ k hlt⟩

/-- Witness: the property of C12 at the sample map with the ASCII records
added and its index 2. -/
theorem desired_indices_in_catalog_witness :
    Reachable sampleCatalog sampleAdded ∧ 2 ∈ desired sampleAdded ∧
    (0 ≤ 2 ∧ 2 < catalogLength sampleCatalog ∧ 2 < sampleCatalog.length ∧
      (symbolAt sampleCatalog 2).c ≠ 0) :=
  ⟨reachable_sampleAdded, by decide,
   desired_indices_in_catalog sampleCatalog sampleAdded reachable_sampleAdded 2 (by decide)⟩

/-- C13: on a map with refs > 0 and for any mask, add_by_tags and
remove_by_tags leave need_rebuild true; and of the operations on an
existing map whose flag is true (the tag functions, copying into or from
it, ref, unref, prepare), only prepare gives a map whose flag is false, and
then the result is the one rebuild_symbols returned. -/
theorem need_rebuild_cleared_only_by_rebuild (chafa_symbols : List ChafaSymbol)
    (m dest : ChafaSymbolMap) (tags : Nat) :
    (0 < m.refs →
      (chafa_symbol_map_add_by_tags chafa_symbols m tags).need_rebuild = true ∧
      (chafa_symbol_map_remove_by_tags chafa_symbols m tags).need_rebuild = true) ∧
    (m.need_rebuild = true →
      (chafa_symbol_map_add_by_tags chafa_symbols m tags).need_rebuild = true ∧
      (chafa_symbol_map_remove_by_tags chafa_symbols m tags).need_rebuild = true ∧
      (chafa_symbol_map_ref m).need_rebuild = true ∧
      (∀ m', chafa_symbol_map_unref m = some m' → m'.need_rebuild = true) ∧
      (chafa_symbol_map_copy_contents dest m).1.need_rebuild = true ∧
      (chafa_symbol_map_copy_contents dest m).2.need_rebuild = true ∧
      (chafa_symbol_map_copy_contents m dest).1.need_rebuild = true ∧
      (∀ m', chafa_symbol_map_prepare chafa_symbols m = some m' →
        m'.need_rebuild = false ∧ rebuild_symbols chafa_symbols m = some m')) := by
  refine ⟨?_, ?_⟩
  · intro hrefs
    simp [chafa_symbol_map_add_by_tags, chafa_symbol_map_remove_by_tags, hrefs]
  · intro hn
    refine ⟨?_, ?_, ?_, ?_, ?_, ?_, ?_, ?_⟩
    · by_cases hrefs : 0 < m.refs <;> simp [chafa_symbol_map_add_by_tags, hrefs, hn]
    · by_cases hrefs : 0 < m.refs <;> simp [chafa_symbol_map_remove_by_tags, hrefs, hn]
    · by_cases hrefs : 0 < m.refs <;> simp [chafa_symbol_map_ref, hrefs, hn]
    · intro m' h
      unfold chafa_symbol_map_unref at h
      by_cases hrefs : 0 < m.refs
      · by_cases h1 : m.refs - 1 = 0
        · simp [hrefs, h1] at h
        · simp only [hrefs, h1, if_true, if_false, Option.some.injEq] at h
          rw [← h]; exact hn
      · simp only [hrefs, if_false, Option.some.injEq] at h
        rw [← h]; exact hn
    · rw [copy_contents_fst]
    · exact hn
    · rw [copy_contents_fst]
    · intro m' hp
      rw [prepare_of_need_rebuild _ _ hn] at hp
      exact ⟨(prepare_desired _ _ _
        ((prepare_of_need_rebuild _ _ hn).trans hp)).2.1, hp⟩

/-- Witness: the property of C13 at the sample map with the ASCII records
added, whose flag is true and whose refs is 1. -/
theorem need_rebuild_cleared_only_by_rebuild_witness :
    0 < sampleAdded.refs ∧ sampleAdded.need_rebuild = true ∧
    ((chafa_symbol_map_add_by_tags sampleCatalog sampleAdded 0).need_rebuild = true ∧
      (chafa_symbol_map_remove_by_tags sampleCatalog sampleAdded 0).need_rebuild = true) ∧
    (∀ m', chafa_symbol_map_prepare sampleCatalog sampleAdded = some m' →
        m'.need_rebuild = false ∧ rebuild_symbols sampleCatalog sampleAdded = some m') :=
  ⟨by decide, rfl,
   (need_rebuild_cleared_only_by_rebuild sampleCatalog sampleAdded sampleAdded 0).1
     (by decide),
   ((need_rebuild_cleared_only_by_rebuild sampleCatalog sampleAdded sampleAdded 0).2
     rfl).2.2.2.2.2.2.2⟩

theorem wrap_gint_of_lt (x : Int) (h0 : 0 ≤ x) (h1 : x < 2147483648) : wrap_gint x = x := by
  unfold wrap_gint
  omega

/-- C14, as the code has it: on a map whose count is 2^31 - 1, the largest
gint, ref does not yield 2^31; the incremented field holds -2^31. -/
theorem ref_at_gint_max_counterexample :
    0 < maxRefsMap.refs ∧
    (chafa_symbol_map_ref maxRefsMap).refs ≠ maxRefsMap.refs + 1 ∧
    (chafa_symbol_map_ref maxRefsMap).refs = -2147483648 := by
  decide

/-- C14, amended: on a map with refs = n, 0 < n, ref yields n + 1 as long
as n is below 2^31 - 1 and unref yields n - 1, both leaving every other
field as it was, and unref destroys the map exactly when n = 1; on a map
whose refs is not positive, ref, unref, add_by_tags and remove_by_tags
leave the map unchanged. -/
theorem ref_unref_contract (chafa_symbols : List ChafaSymbol) (m : ChafaSymbolMap)
    (tags : Nat) :
    (0 < m.refs → m.refs < 2147483647 →
      chafa_symbol_map_ref m = { m with refs := m.refs + 1 }) ∧
    (0 < m.refs →
      (chafa_symbol_map_unref m = none ↔ m.refs = 1) ∧
      (m.refs ≠ 1 → chafa_symbol_map_unref m = some { m with refs := m.refs - 1 })) ∧
    (¬ 0 < m.refs →
      chafa_symbol_map_ref m = m ∧
      chafa_symbol_map_unref m = some m ∧
      chafa_symbol_map_add_by_tags chafa_symbols m tags = m ∧
      chafa_symbol_map_remove_by_tags chafa_symbols m tags = m) := by
  refine ⟨?_, ?_, ?_⟩
  · intro h0 h1
    simp only [chafa_symbol_map_ref, h0, if_true]
    rw [wrap_gint_of_lt _ (by omega) (by omega)]
  · intro h0
    have e : m.refs - 1 = 0 ↔ m.refs = 1 := by omega
    refine ⟨?_, ?_⟩
    · by_cases h1 : m.refs = 1
      · simp [chafa_symbol_map_unref, h0, h1]
      · simp [chafa_symbol_map_unref, h0, h1, e]
    · intro h1
      simp [chafa_symbol_map_unref, h0, h1, e]
  · intro h0
    simp [chafa_symbol_map_ref, chafa_symbol_map_unref, chafa_symbol_map_add_by_tags,
      chafa_symbol_map_remove_by_tags, h0]

/-- Witness: the amended property of C14 at the new map (refs 1) and at
the map that ref makes of it (refs 2). -/
theorem ref_unref_contract_witness :
    (0 < chafa_symbol_map_new.refs ∧ chafa_symbol_map_new.refs < 2147483647 ∧
      chafa_symbol_map_ref chafa_symbol_map_new
        = { chafa_symbol_map_new with refs := chafa_symbol_map_new.refs + 1 }) ∧
    ((chafa_symbol_map_unref chafa_symbol_map_new = none ↔ chafa_symbol_map_new.refs = 1)) ∧
    ((chafa_symbol_map_ref chafa_symbol_map_new).refs ≠ 1 ∧
      chafa_symbol_map_unref (chafa_symbol_map_ref chafa_symbol_map_new)
        = some { chafa_symbol_map_ref chafa_symbol_map_new with
                  refs := (chafa_symbol_map_ref chafa_symbol_map_new).refs - 1 }) :=
  ⟨⟨by decide, by decide,
     (ref_unref_contract sampleCatalog chafa_symbol_map_new 0).1 (by decide) (by decide)⟩,
   ((ref_unref_contract sampleCatalog chafa_symbol_map_new 0).2.1 (by decide)).1,
   by decide,
   ((ref_unref_contract sampleCatalog (chafa_symbol_map_ref chafa_symbol_map_new) 0).2.1
      (by decide)).2 (by decide)⟩

/-- C17, as the code has it: copy_contents from the prepared sample map
leaves the copy without an array, but with the count n_symbols = 2 of the
source, not 0. -/
theorem copy_keeps_n_symbols_counterexample :
    (chafa_symbol_map_copy_contents chafa_symbol_map_new samplePrepared).1.symbols = none ∧
    (chafa_symbol_map_copy_contents chafa_symbol_map_new samplePrepared).1.n_symbols = 2 ∧
    (chafa_symbol_map_copy_contents chafa_symbol_map_new samplePrepared).1.n_symbols ≠ 0 := by
  decide

/-- C17, amended: copy_contents leaves the copy without an array (the
pointer is NULL, so the table is empty and no record of the source's table
is carried over) and flagged for rebuilding, while the field n_symbols
keeps the count of the source; the count is set anew by the rebuild of the
next prepare, which returns whenever the set of wanted indices has been
created. -/
theorem copy_drops_array_keeps_count (chafa_symbols : List ChafaSymbol)
    (dest src : ChafaSymbolMap) :
    (chafa_symbol_map_copy_contents dest src).1.symbols = none ∧
    table (chafa_symbol_map_copy_contents dest src).1 = [] ∧
    (chafa_symbol_map_copy_contents dest src).1.need_rebuild = true ∧
    (chafa_symbol_map_copy_contents dest src).1.n_symbols = src.n_symbols ∧
    (src.desired_symbols ≠ none →
      ∃ d, chafa_symbol_map_prepare chafa_symbols (chafa_symbol_map_copy_contents dest src).1
            = some d ∧
        d.n_symbols = (desired src).length ∧
        d.symbols = some (qsort compare_symbols ((desired src).map (symbolAt chafa_symbols))
                          ++ [ChafaSymbol.zero])) := by
  rw [copy_contents_fst]
  refine ⟨rfl, rfl, rfl, rfl, ?_⟩
  intro hne
  obtain ⟨t, hd⟩ : ∃ t, src.desired_symbols = some t := by
    cases hq : src.desired_symbols with
    | none => exact absurd hq hne
    | some t => exact ⟨t, rfl⟩
  exact ⟨_, (prepare_of_need_rebuild chafa_symbols _ rfl).trans
      (rebuild_symbols_some chafa_symbols _ t hd), rfl, rfl⟩

/-- Witness: the amended property of C17 at the prepared sample map. -/
theorem copy_drops_array_keeps_count_witness :
    samplePrepared.desired_symbols ≠ none ∧
    (chafa_symbol_map_copy_contents chafa_symbol_map_new samplePrepared).1.n_symbols
      = samplePrepared.n_symbols ∧
    (∃ d, chafa_symbol_map_prepare sampleCatalog
            (chafa_symbol_map_copy_contents chafa_symbol_map_new samplePrepared).1 = some d ∧
        d.n_symbols = (desired samplePrepared).length ∧
        d.symbols = some (qsort compare_symbols
                            ((desired samplePrepared).map (symbolAt sampleCatalog))
                          ++ [ChafaSymbol.zero])) :=
  ⟨by simp [samplePrepared],
   (copy_drops_array_keeps_count sampleCatalog chafa_symbol_map_new samplePrepared).2.2.2.1,
   (copy_drops_array_keeps_count sampleCatalog chafa_symbol_map_new samplePrepared).2.2.2.2
     (by simp [samplePrepared])⟩

/-- C19: copy_contents gives the copy the refs of the source (the whole
struct is copied before the set is duplicated), whatever dest held, and the
source keeps its refs; a source with refs 2 gives a copy with refs 2, not
1. -/
theorem copy_contents_copies_refs (dest src : ChafaSymbolMap) :
    (chafa_symbol_map_copy_contents dest src).1.refs = src.refs ∧
    (chafa_symbol_map_copy_contents dest src).2.refs = src.refs ∧
    (chafa_symbol_map_copy_contents dest src).2 = src ∧
    (chafa_symbol_map_copy_contents chafa_symbol_map_new
        (chafa_symbol_map_ref chafa_symbol_map_new)).1.refs = 2 := by
  rw [copy_contents_fst]
  refine ⟨rfl, rfl, rfl, ?_⟩
  decide

/-! ## Binary search against the early-exit scan -/

theorem sorted_getElem?_le (a : List ChafaSymbol)
    (hs : a.Pairwise (fun p q => p.c ≤ q.c)) (i j : Nat) (hij : i < j)
    (s t : ChafaSymbol) (hi : a[i]? = some s) (hj : a[j]? = some t) : s.c ≤ t.c := by
  obtain ⟨hi1, hi2⟩ := List.getElem?_eq_some_iff.mp hi
  obtain ⟨hj1, hj2⟩ := List.getElem?_eq_some_iff.mp hj
  have := List.pairwise_iff_getElem.mp hs i j hi1 hj1 hij
  rw [hi2, hj2] at this
  exact this

theorem binary_search_loop_iff (a : List ChafaSymbol)
    (hs : a.Pairwise (fun p q => p.c ≤ q.c)) (x : Nat) :
    ∀ (fuel lo hi : Nat), hi ≤ a.length → hi - lo ≤ fuel →
      (binary_search_loop a x fuel lo hi = true ↔
        ∃ i s, lo ≤ i ∧ i < hi ∧ a[i]? = some s ∧ s.c = x) := by
  intro fuel
  induction fuel with
  | zero =>
    intro lo hi _ hf
    simp only [binary_search_loop]
    constructor
    · intro h; cases h
    · rintro ⟨i, s, h1, h2, _, _⟩; omega
  | succ fuel ih =>
    intro lo hi hlen hf
    simp only [binary_search_loop]
    by_cases hlt : lo < hi
    · simp only [hlt, if_true]
      have hmid1 : lo ≤ (lo + hi) / 2 := by omega
      have hmid2 : (lo + hi) / 2 < hi := by omega
      have hmid3 : (lo + hi) / 2 < a.length := by omega
      have hget : a[(lo + hi) / 2]? = some a[(lo + hi) / 2] :=
        List.getElem?_eq_getElem hmid3
      generalize hm : a[(lo + hi) / 2] = sm at hget
      rw [hget]
      simp only
      by_cases h1 : sm.c = x
      · simp only [h1, if_true, true_iff]
        exact ⟨(lo + hi) / 2, sm, hmid1, hmid2, hget, h1⟩
      · by_cases h2 : sm.c < x
        · simp only [h1, h2, if_false, if_true]
          rw [ih ((lo + hi) / 2 + 1) hi hlen (by omega)]
          constructor
          · rintro ⟨i, s, hi1, hi2, hi3, hi4⟩
            exact ⟨i, s, by omega, hi2, hi3, hi4⟩
          · rintro ⟨i, s, hi1, hi2, hi3, hi4⟩
            refine ⟨i, s, ?_, hi2, hi3, hi4⟩
            by_contra hcon
            have hle : i ≤ (lo + hi) / 2 := by omega
            rcases Nat.lt_or_eq_of_le hle with hlt2 | heq
            · have := sorted_getElem?_le a hs i _ hlt2 s sm hi3 hget
              omega
            · rw [heq, hget] at hi3
              cases hi3
              exact h1 hi4
        · simp only [h1, h2, if_false]
          rw [ih lo ((lo + hi) / 2) (by omega) (by omega)]
          constructor
          · rintro ⟨i, s, hi1, hi2, hi3, hi4⟩
            exact ⟨i, s, hi1, by omega, hi3, hi4⟩
          · rintro ⟨i, s, hi1, hi2, hi3, hi4⟩
            refine ⟨i, s, hi1, ?_, hi3, hi4⟩
            by_contra hcon
            have hle : (lo + hi) / 2 ≤ i := by omega
            rcases Nat.lt_or_eq_of_le hle with hlt2 | heq
            · have := sorted_getElem?_le a hs _ i hlt2 sm s hget hi3
              omega
            · rw [← heq, hget] at hi3
              cases hi3
              exact h1 hi4
    · simp only [hlt, if_false]
      constructor
      · intro h; cases h
      · rintro ⟨i, s, h1, h2, _, _⟩; omega

theorem binary_search_iff (a : List ChafaSymbol)
    (hs : a.Pairwise (fun p q => p.c ≤ q.c)) (x : Nat) :
    binary_search a x = true ↔ ∃ s ∈ a, s.c = x := by
  unfold binary_search
  rw [binary_search_loop_iff a hs x a.length 0 a.length (le_refl _) (by omega)]
  constructor
  · rintro ⟨i, s, _, _, h3, h4⟩
    exact ⟨s, List.getElem?_mem h3, h4⟩
  · rintro ⟨s, hmem, h4⟩
    obtain ⟨i, hi, he⟩ := List.getElem_of_mem hmem
    exact ⟨i, s, Nat.zero_le i, hi, by rw [List.getElem?_eq_getElem hi, he], h4⟩

theorem has_symbol_eq_scan_table (m : ChafaSymbolMap) (a : List ChafaSymbol)
    (ha : m.symbols = some a) (hn : m.n_symbols ≤ a.length) (x : Nat) :
    chafa_symbol_map_has_symbol m x = some (scan x (table m)) := by
  unfold chafa_symbol_map_has_symbol table
  rw [ha]
  simp only
  have h := has_symbol_loop_eq_scan x (a.take m.n_symbols) [] (a.drop m.n_symbols)
  simp only [List.nil_append, List.take_append_drop, List.length_nil, List.length_take,
    Nat.min_eq_left hn] at h
  exact h

/-- C15: on a table in ascending order of code points (equal neighbours
allowed) the early-exit scan of has_symbol returns what a binary search for
x returns, true exactly when some record of the table has code point x; and
there is a table out of order on which the scan returns false for a code
point that the table holds. -/
theorem has_symbol_eq_binary_search (m : ChafaSymbolMap) (a : List ChafaSymbol)
    (x : Nat) (ha : m.symbols = some a) (hn : m.n_symbols ≤ a.length)
    (hs : (table m).Pairwise (fun p q => p.c ≤ q.c)) :
    chafa_symbol_map_has_symbol m x = some (binary_search (table m) x) ∧
    (chafa_symbol_map_has_symbol m x = some true ↔ ∃ s ∈ table m, s.c = x) ∧
    (∃ u y, ¬ (table u).Pairwise (fun p q => p.c ≤ q.c) ∧ (∃ s ∈ table u, s.c = y) ∧
      chafa_symbol_map_has_symbol u y = some false) := by
  have h1 := has_symbol_eq_scan_table m a ha hn x
  have h2 := scan_sorted x (table m) hs
  have h3 := binary_search_iff (table m) hs x
  have h4 : scan x (table m) = binary_search (table m) x := by
    cases hb : binary_search (table m) x with
    | true => exact h2.mpr (h3.mp hb)
    | false =>
      cases hc : scan x (table m) with
      | false => rfl
      | true => rw [h3.mpr (h2.mp hc)] at hb; cases hb
  refine ⟨by rw [h1, h4], ?_, ?_⟩
  · rw [h1, ← h2]; simp
  · exact ⟨unsortedMap, 35, by decide, ⟨⟨TAG_BLOCK, 35, 0⟩, by decide, rfl⟩, by decide⟩

/-- Witness: the property of C15 at the prepared sample map and the code
point of the commercial at. -/
theorem has_symbol_eq_binary_search_witness :
    samplePrepared.symbols
      = some [⟨TAG_ASCII, 46, 0⟩, ⟨TAG_ASCII, 64, 0⟩, ChafaSymbol.zero] ∧
    samplePrepared.n_symbols ≤ 3 ∧
    (table samplePrepared).Pairwise (fun p q => p.c ≤ q.c) ∧
    chafa_symbol_map_has_symbol samplePrepared 64
      = some (binary_search (table samplePrepared) 64) ∧
    (chafa_symbol_map_has_symbol samplePrepared 64 = some true ↔
      ∃ s ∈ table samplePrepared, s.c = 64) :=
  ⟨rfl, by decide, by decide,
   (has_symbol_eq_binary_search samplePrepared _ 64 rfl (by decide) (by decide)).1,
   (has_symbol_eq_binary_search samplePrepared _ 64 rfl (by decide) (by decide)).2.1⟩

/-! ## The closing record and the masks -/

theorem takeWhile_append_stop (p : ChafaSymbol → Bool) (z : ChafaSymbol)
    (t : List ChafaSymbol) (hz : p z = false) :
    ∀ l : List ChafaSymbol, (∀ s ∈ l, p s = true) → (l ++ z :: t).takeWhile p = l := by
  intro l
  induction l with
  | nil => intro _; simp [List.takeWhile, hz]
  | cons y ys ih =>
    intro h
    have hy : p y = true := h y (List.mem_cons_self y ys)
    rw [List.cons_append, List.takeWhile_cons, hy]
    simp only [if_true]
    rw [ih (fun s hs => h s (List.mem_cons_of_mem y hs))]

/-- C16, as the code has it: prepare on a newly created map returns it as
it is, with no array at all, so there is no slot at index n_symbols. -/
theorem prepare_new_map_counterexample :
    Reachable sampleCatalog chafa_symbol_map_new ∧
    chafa_symbol_map_prepare sampleCatalog chafa_symbol_map_new = some chafa_symbol_map_new ∧
    chafa_symbol_map_new.symbols = none :=
  ⟨Reachable.create, rfl, rfl⟩

/-- C16, amended: on a reached map whose set of wanted indices has been
created, prepare returns a map whose array has n_symbols + 1 slots, with
the all-zero record at index n_symbols and no record with c = 0 before it,
so that reading the array up to the first c = 0 yields exactly the
n_symbols records of the table. -/
theorem array_closed_by_zero_record (chafa_symbols : List ChafaSymbol)
    (m : ChafaSymbolMap) (hm : Reachable chafa_symbols m)
    (hne : m.desired_symbols ≠ none) :
    ∃ m' a,
      chafa_symbol_map_prepare chafa_symbols m = some m' ∧
      m'.symbols = some a ∧
      a.length = m'.n_symbols + 1 ∧
      a[m'.n_symbols]? = some ChafaSymbol.zero ∧
      (∀ i s, i < m'.n_symbols → a[i]? = some s → s.c ≠ 0) ∧
      a.takeWhile (fun s => decide (s.c ≠ 0)) = table m' ∧
      (table m').length = m'.n_symbols := by
  obtain ⟨m', hp⟩ := prepare_isSome chafa_symbols m (Or.inl hne)
  have hc := consistent_of_reachable _ _ (Reachable.prepare m m' hm hp)
  obtain ⟨hd, hn, _⟩ := prepare_desired _ _ _ hp
  have ht := table_of_consistent _ _ hc hn
  obtain ⟨hlen, hs⟩ := hc.2 hn
  have hs2 : m'.symbols = some (table m' ++ [ChafaSymbol.zero]) := by
    rcases hs with ⟨_, hs⟩ | hs
    · rw [hd] at hs; exact absurd hs hne
    · rw [ht]; exact hs
  have htl : (table m').length = m'.n_symbols := by
    rw [ht, qsort_length, List.length_map, hlen]
  have hnz : ∀ s ∈ table m', s.c ≠ 0 := by
    intro s hs3
    rw [ht] at hs3
    obtain ⟨k, hk, rfl⟩ := List.mem_map.mp ((qsort_perm _).subset hs3)
    exact symbolAt_c_ne_zero _ k (hc.1 k hk)
  refine ⟨m', table m' ++ [ChafaSymbol.zero], hp, hs2, ?_, ?_, ?_, ?_, htl⟩
  · simp [htl]
  · rw [← htl, List.getElem?_append_right (le_refl _)]
    simp
  · intro i s hi hget
    rw [← htl] at hi
    rw [List.getElem?_append_left hi] at hget
    exact hnz s (List.getElem?_mem hget)
  · apply takeWhile_append_stop
    · simp [ChafaSymbol.zero]
    · intro s hs3
      simpa using hnz s hs3

/-- Witness: the amended property of C16 at the sample map with the ASCII
records added. -/
theorem array_closed_by_zero_record_witness :
    Reachable sampleCatalog sampleAdded ∧ sampleAdded.desired_symbols ≠ none ∧
    ∃ m' a,
      chafa_symbol_map_prepare sampleCatalog sampleAdded = some m' ∧
      m'.symbols = some a ∧
      a.length = m'.n_symbols + 1 ∧
      a[m'.n_symbols]? = some ChafaSymbol.zero ∧
      (∀ i s, i < m'.n_symbols → a[i]? = some s → s.c ≠ 0) ∧
      a.takeWhile (fun s => decide (s.c ≠ 0)) = table m' ∧
      (table m').length = m'.n_symbols :=
  ⟨reachable_sampleAdded, by simp [sampleAdded, chafa_symbol_map_add_by_tags,
      chafa_symbol_map_new, chafa_symbol_map_init],
   array_closed_by_zero_record sampleCatalog sampleAdded reachable_sampleAdded
     (by simp [sampleAdded, chafa_symbol_map_add_by_tags, chafa_symbol_map_new,
       chafa_symbol_map_init])⟩

theorem lor_eq_zero_iff (a b : Nat) : a ||| b = 0 ↔ a = 0 ∧ b = 0 := by
  constructor
  · intro h
    constructor
    · apply Nat.eq_of_testBit_eq; intro i
      have := congrArg (fun n => n.testBit i) h
      simp [Nat.testBit_or] at this
      simp [this.1]
    · apply Nat.eq_of_testBit_eq; intro i
      have := congrArg (fun n => n.testBit i) h
      simp [Nat.testBit_or] at this
      simp [this.2]
  · rintro ⟨rfl, rfl⟩; simp

theorem matchesTags_lor (chafa_symbols : List ChafaSymbol) (t1 t2 i : Nat) :
    matchesTags chafa_symbols (t1 ||| t2) i ↔
      matchesTags chafa_symbols t1 i ∨ matchesTags chafa_symbols t2 i := by
  unfold matchesTags
  rw [Nat.and_or_distrib_left, ne_eq, lor_eq_zero_iff]
  tauto

theorem refs_remove_by_tags (chafa_symbols : List ChafaSymbol) (m : ChafaSymbolMap)
    (tags : Nat) : (chafa_symbol_map_remove_by_tags chafa_symbols m tags).refs = m.refs := by
  unfold chafa_symbol_map_remove_by_tags
  split <;> rfl

/-- C18: two add_by_tags calls with masks T1 and T2 give the wanted set
that one call with T1 OR T2 gives, and the set that the two calls in the
other order give; two remove_by_tags calls with T1 and T2 give the wanted
set that one call with T1 OR T2 gives. -/
theorem tag_calls_combine (chafa_symbols : List ChafaSymbol) (m : ChafaSymbolMap)
    (t1 t2 i : Nat) :
    (i ∈ desired (chafa_symbol_map_add_by_tags chafa_symbols
            (chafa_symbol_map_add_by_tags chafa_symbols m t1) t2) ↔
      i ∈ desired (chafa_symbol_map_add_by_tags chafa_symbols m (t1 ||| t2))) ∧
    (i ∈ desired (chafa_symbol_map_add_by_tags chafa_symbols
            (chafa_symbol_map_add_by_tags chafa_symbols m t1) t2) ↔
      i ∈ desired (chafa_symbol_map_add_by_tags chafa_symbols
            (chafa_symbol_map_add_by_tags chafa_symbols m t2) t1)) ∧
    (i ∈ desired (chafa_symbol_map_remove_by_tags chafa_symbols
            (chafa_symbol_map_remove_by_tags chafa_symbols m t1) t2) ↔
      i ∈ desired (chafa_symbol_map_remove_by_tags chafa_symbols m (t1 ||| t2))) := by
  by_cases hrefs : 0 < m.refs
  · have ha1 : 0 < (chafa_symbol_map_add_by_tags chafa_symbols m t1).refs := by
      rw [refs_add_by_tags]; exact hrefs
    have ha2 : 0 < (chafa_symbol_map_add_by_tags chafa_symbols m t2).refs := by
      rw [refs_add_by_tags]; exact hrefs
    have hr1 : 0 < (chafa_symbol_map_remove_by_tags chafa_symbols m t1).refs := by
      rw [refs_remove_by_tags]; exact hrefs
    refine ⟨?_, ?_, ?_⟩
    · rw [mem_desired_add_by_tags _ _ _ ha1, mem_desired_add_by_tags _ _ _ hrefs,
        mem_desired_add_by_tags _ _ _ hrefs, matchesTags_lor]
      tauto
    · rw [mem_desired_add_by_tags _ _ _ ha1, mem_desired_add_by_tags _ _ _ hrefs,
        mem_desired_add_by_tags _ _ _ ha2, mem_desired_add_by_tags _ _ _ hrefs]
      tauto
    · rw [mem_desired_remove_by_tags _ _ _ hr1, mem_desired_remove_by_tags _ _ _ hrefs,
        mem_desired_remove_by_tags _ _ _ hrefs, matchesTags_lor]
      tauto
  · simp [chafa_symbol_map_add_by_tags, chafa_symbol_map_remove_by_tags, hrefs]

end Chafa
